import Mathlib

/- Verification of the uxml-js node/tree model, parser and formatter.

The JavaScript source (uxml.mjs) is shallowly embedded: the mutable object
graph of UXMLNode values becomes a heap, a total function from node ids to
node records; every JS statement that writes one property becomes one heap
update, in source order, so reads always see the preceding writes.  JS
`null` becomes `none`; the module-level null sentinel node is the record at
id 0.  Thrown JS exceptions become `Except.error` values: `TypeError` from
the explicit kind guards is `typeMismatch`, `RangeError` is
`rangeViolation`, a `TypeError` from dereferencing `null` is `nullCrash`,
and a strict-mode `TypeError` from assigning a non-writable property of the
null node is `readonly`. -/

set_option maxHeartbeats 1000000

namespace UXML

/-- Node kinds, mirroring `UXML.nodeType` in the source. -/
inductive NType
  | nul
  | tag
  | text
  | cdata
  | comment
deriving DecidableEq, Repr

/-- Error channels of the JS code, as described in the header comment. -/
inductive Err
  | typeMismatch
  | rangeViolation
  | nullCrash
  | readonly
deriving DecidableEq, Repr

/-- Strings are modelled as lists of Unicode code points. -/
abbrev Str := List Nat

abbrev ID := Nat

/-- The process-wide null sentinel node occupies id 0. -/
def nullId : ID := 0

/-- One UXMLNode object: its immutable kind, the data fields (a `name` only
exists on tag nodes, a `value` only on textual nodes, mirrored with
`Option`), the attribute map as an insertion-ordered association list, the
five sibling/parent/child links, and the child counter `size`.  `size` is an
`Int` because JS `--sup.size` may pass below zero on corrupted graphs. -/
structure NodeRec where
  type : NType
  name : Option Str
  value : Option Str
  attrs : List (Str × Str)
  prev : Option ID
  next : Option ID
  sup : Option ID
  first : Option ID
  last : Option ID
  size : Int
deriving Repr

/-- The object heap: every id denotes a record.  Ids that were never
allocated simply hold pristine records. -/
abbrev Heap := ID → NodeRec

/-- A node as built by `new UXMLNode(type, data)`: all links null, size 0. -/
def freshRec (t : NType) (nm : Option Str) (v : Option Str) : NodeRec :=
  ⟨t, nm, v, [], none, none, none, none, none, 0⟩

/-- The record of the module-level `nullNode = new UXMLNode(nul, "")`. -/
def nullRec : NodeRec := freshRec NType.nul none (some [])

/-- Factory `UXMLDocument.newTagNode`. -/
def tagRec (nm : Str) : NodeRec := freshRec NType.tag (some nm) none

/-- Factory `UXMLDocument.newTextNode`. -/
def textRec (v : Str) : NodeRec := freshRec NType.text none (some v)

/-- Factory `UXMLDocument.newCdataNode`. -/
def cdataRec (v : Str) : NodeRec := freshRec NType.cdata none (some v)

/-- Factory `UXMLDocument.newCommentNode`. -/
def commentRec (v : Str) : NodeRec := freshRec NType.comment none (some v)

/-! ### Single-property writes

Each setter is one JS property assignment.  The cross-field read lemmas
below let proofs ignore aliasing between the written node and any other
node being read. -/
def sPrev (s : Heap) (i : ID) (v : Option ID) : Heap :=
  fun j => if j = i then { s i with prev := v } else s j

def sNext (s : Heap) (i : ID) (v : Option ID) : Heap :=
  fun j => if j = i then { s i with next := v } else s j

def sSup (s : Heap) (i : ID) (v : Option ID) : Heap :=
  fun j => if j = i then { s i with sup := v } else s j

def sFirst (s : Heap) (i : ID) (v : Option ID) : Heap :=
  fun j => if j = i then { s i with first := v } else s j

def sLast (s : Heap) (i : ID) (v : Option ID) : Heap :=
  fun j => if j = i then { s i with last := v } else s j

def sSize (s : Heap) (i : ID) (v : Int) : Heap :=
  fun j => if j = i then { s i with size := v } else s j

/-- Allocation: a fresh object is installed wholesale at an id. -/
def sNew (s : Heap) (i : ID) (r : NodeRec) : Heap :=
  fun j => if j = i then r else s j

/-- `RadixTree.set`: update an existing key in place, else append. -/
def attrsSet (l : List (Str × Str)) (k v : Str) : List (Str × Str) :=
  match l with
  | [] => [(k, v)]
  | (k0, v0) :: rest =>
      if k0 = k then (k0, v) :: rest else (k0, v0) :: attrsSet rest k v

/-- `currNode.attributes.set (attr, text)`. -/
def sAttrSet (s : Heap) (i : ID) (k v : Str) : Heap :=
  fun j => if j = i then { s i with attrs := attrsSet (s i).attrs k v } else s j

/-! ### Structural mutation (UXMLNode.detach / append / insert / remove) -/

/-- The body of `detach()` once `sup` is known to be an object: each line is
the corresponding JS statement of lines 270-287 of the source.  `prev`,
`next` are the `const` snapshots taken at entry. -/
def detachAttached (s : Heap) (c p : ID) : Heap :=
  let prev := (s c).prev
  let next := (s c).next
  let s1 := match prev with
    | none => sFirst s p next
    | some pr => sNext s pr next
  let s2 := match next with
    | none => sLast s1 p prev
    | some nx => sPrev s1 nx prev
  let s3 := sSup s2 c none
  let s4 := sPrev s3 c none
  let s5 := sNext s4 c none
  sSize s5 p ((s5 p).size - 1)

/-- `detach()`: with a null parent the very first statement block
dereferences `null` and throws. -/
def detach (s : Heap) (c : ID) : Except Err Heap :=
  match (s c).sup with
  | none => .error .nullCrash
  | some p => .ok (detachAttached s c p)

/-- Lines 300-308 of `append (node)`: the relinking statements that run
after the optional implicit detach. -/
def appendCore (s1 : Heap) (t c : ID) : Heap :=
  let s2 := sSup s1 c (some t)
  let s3 := sPrev s2 c ((s2 t).last)
  let s4 := match (s3 t).last with
    | none => sFirst s3 t (some c)
    | some lt => sNext s3 lt (some c)
  let s5 := sNext s4 c none
  let s6 := sLast s5 t (some c)
  sSize s6 t ((s6 t).size + 1)

/-- `append (node)`, lines 291-311.  The write `node.superNode = this` is
the first assignment to a non-writable property when `node` is the null
node, so strict mode throws there. -/
def appendN (s0 : Heap) (t c : ID) : Except Err Heap :=
  if (s0 t).type ≠ NType.tag then .error .typeMismatch else
  let s1 := match (s0 c).sup with
    | none => s0
    | some p => detachAttached s0 c p
  if (s1 c).type = NType.nul then .error .readonly else
  .ok (appendCore s1 t c)

/-- Lines 335-343 of `insert (node, ref)`: the relinking statements that
run after the optional implicit detach.  The JS condition
`ref.previousNode === null` and the JS dereference
`node.previousNode.nextNode` both read the value that
`node.previousNode = ref.previousNode` just stored (the two reads agree
even when `node` and `ref` alias), so one match covers both. -/
def insertRelink (s1 : Heap) (t c r : ID) : Heap :=
  let s2 := sSup s1 c (some t)
  let s3 := sPrev s2 c ((s2 r).prev)
  let s4 := match (s3 c).prev with
    | none => sFirst s3 t (some c)
    | some pv => sNext s3 pv (some c)
  let s5 := sNext s4 c (some r)
  let s6 := sPrev s5 r (some c)
  sSize s6 t ((s6 t).size + 1)

/-- Lines 331-345 of `insert`: implicit detach, readonly guard, relink. -/
def insertCore (s0 : Heap) (t c r : ID) : Except Err Heap :=
  let s1 := match (s0 c).sup with
    | none => s0
    | some p => detachAttached s0 c p
  if (s1 c).type = NType.nul then .error .readonly else
  .ok (insertRelink s1 t c r)

/-- `insert (node, ref=null)`, lines 315-346: an omitted reference defaults
to the first child; an empty tag delegates to `append`; an explicit
reference must be a direct child of the receiver. -/
def insertN (s0 : Heap) (t c : ID) (ref : Option ID) : Except Err Heap :=
  if (s0 t).type ≠ NType.tag then .error .typeMismatch else
  match ref with
  | none =>
      match (s0 t).first with
      | none => appendN s0 t c
      | some r => insertCore s0 t c r
  | some r =>
      if (s0 r).sup ≠ some t then .error .rangeViolation
      else insertCore s0 t c r

/-- The scanning loop of `remove (node)`: walk the sibling chain by
reference equality.  The JS loop may diverge on a corrupted cyclic chain;
the fuel below is the amount of scanning `remove` grants it. -/
def scanFor (s : Heap) (c : ID) : Nat → Option ID → Bool
  | _, none => false
  | 0, some _ => false
  | fuel + 1, some i => if i = c then true else scanFor s c fuel (s i).next

/-- `remove (node)`, lines 350-367: detach the node only if it is found
among the direct children, else a silent no-op. -/
def removeN (s0 : Heap) (t c : ID) : Except Err Heap :=
  if (s0 t).type ≠ NType.tag then .error .typeMismatch else
  if scanFor s0 c ((s0 t).size.toNat) ((s0 t).first) then detach s0 c
  else .ok s0

/-! ### Navigation -/

/-- The three directions `$navigate` is called with. -/
inductive Dir
  | toPrev
  | toSup
  | toNext
deriving DecidableEq, Repr

/-- One JS pointer step of `$navigate` / `$navigateTag`. -/
def navStep (s : Heap) (d : Dir) (i : ID) : Option ID :=
  match d with
  | .toPrev => (s i).prev
  | .toSup => (s i).sup
  | .toNext => (s i).next

/-- The loop of `$navigate (dir, num)` for a non-negative count: each null
pointer met underway returns the null sentinel at once. -/
def navigate (s : Heap) (d : Dir) : ID → Nat → ID
  | i, 0 => i
  | i, n + 1 =>
      match navStep s d i with
      | none => nullId
      | some j => navigate s d j n

/-- Reference walk in the option monad: `none` means the chain ran out
before the requested number of steps, in other words the traversal ran past
a boundary of the tree. -/
def walkOpt (s : Heap) (d : Dir) : ID → Nat → Option ID
  | i, 0 => some i
  | i, n + 1 =>
      match navStep s d i with
      | none => none
      | some j => walkOpt s d j n

/-- The loop of `$navigateTag`: skip non-tag nodes in sibling directions,
then either count down a numeric filter or compare tag names.  The JS loop
runs unboundedly; `none` here means the granted fuel ran out (which on a
well-formed tree never happens). -/
def navTagLoop (s : Heap) (d : Dir) : ID → Nat ⊕ Str → Nat → Option ID
  | _, _, 0 => none
  | i, f, fuel + 1 =>
      match navStep s d i with
      | none => some nullId
      | some j =>
          if d ≠ Dir.toSup ∧ (s j).type ≠ NType.tag then
            navTagLoop s d j f fuel
          else
            match f with
            | .inl n => if n - 1 = 0 then some j else navTagLoop s d j (.inl (n - 1)) fuel
            | .inr nm =>
                if some nm = (s j).name then some j else navTagLoop s d j (.inr nm) fuel

/-- The polymorphic `filter` argument of the tag navigations. -/
inductive TagFilter
  | byCount (n : Nat)
  | byName (nm : Str)
deriving DecidableEq, Repr

/-- `$navigateTag (dir, filter)`: a numeric filter of zero returns the
receiver before the loop starts. -/
def navigateTag (s : Heap) (d : Dir) (i : ID) (f : TagFilter) (fuel : Nat) : Option ID :=
  match f with
  | .byCount n => if n = 0 then some i else navTagLoop s d i (.inl n) fuel
  | .byName nm => navTagLoop s d i (.inr nm) fuel

/-- `first()`: `this.firstNode || nullNode`. -/
def firstF (s : Heap) (i : ID) : ID :=
  match (s i).first with
  | none => nullId
  | some j => j

/-- `last()`: `this.lastNode || nullNode`. -/
def lastF (s : Heap) (i : ID) : ID :=
  match (s i).last with
  | none => nullId
  | some j => j

/-- `firstTag (name="")`, lines 171-185. -/
def firstTagF (s : Heap) (i : ID) (nm : Str) (fuel : Nat) : Option ID :=
  let r1 := firstF s i
  let step2 := if (s r1).type ≠ NType.tag then navigateTag s .toNext r1 (.byCount 1) fuel
               else some r1
  match step2 with
  | none => none
  | some r2 =>
      if nm ≠ [] ∧ some nm ≠ (s r2).name then navigateTag s .toNext r2 (.byName nm) fuel
      else some r2

/-- `lastTag (name="")`, lines 193-207. -/
def lastTagF (s : Heap) (i : ID) (nm : Str) (fuel : Nat) : Option ID :=
  let r1 := lastF s i
  let step2 := if (s r1).type ≠ NType.tag then navigateTag s .toPrev r1 (.byCount 1) fuel
               else some r1
  match step2 with
  | none => none
  | some r2 =>
      if nm ≠ [] ∧ some nm ≠ (s r2).name then navigateTag s .toPrev r2 (.byName nm) fuel
      else some r2

/-- `nth (idx)`: `this.first().next(idx)`. -/
def nthF (s : Heap) (i : ID) (idx : Nat) : ID :=
  navigate s .toNext (firstF s i) idx

/-- The named while loop of `nthTag`: `idx` repetitions of `nextTag (name)`. -/
def nthTagNamed (s : Heap) (nm : Str) (fuel : Nat) : ID → Nat → Option ID
  | r, 0 => some r
  | r, idx + 1 => do
      let r2 ← navigateTag s .toNext r (.byName nm) fuel
      nthTagNamed s nm fuel r2 idx

/-- `nthTag (idx, name="")`, lines 215-232. -/
def nthTagF (s : Heap) (i : ID) (idx : Nat) (nm : Str) (fuel : Nat) : Option ID := do
  let r ← firstTagF s i nm fuel
  if nm ≠ [] then nthTagNamed s nm fuel r idx
  else navigateTag s .toNext r (.byCount idx) fuel

/-- `isNull()`. -/
def isNullF (s : Heap) (i : ID) : Bool :=
  (s i).type = NType.nul

/-! ### Traversal counting

`chainF s fuel o` collects the nodes reached from `o` by following
`nextNode`, and `chainB` follows `previousNode`; the fuel bounds the walk so
that the functions are total even on corrupted cyclic graphs. -/
def chainF (s : Heap) : Nat → Option ID → List ID
  | _, none => []
  | 0, some _ => []
  | fuel + 1, some i => i :: chainF s fuel (s i).next

def chainB (s : Heap) : Nat → Option ID → List ID
  | _, none => []
  | 0, some _ => []
  | fuel + 1, some i => i :: chainB s fuel (s i).prev

/-! ### Operation sequences -/

/-- The four structural mutation calls of the public node API. -/
inductive Op
  | append (t c : ID)
  | insert (t c : ID) (ref : Option ID)
  | detach (c : ID)
  | remove (t c : ID)
deriving DecidableEq, Repr

def step (s : Heap) : Op → Except Err Heap
  | .append t c => appendN s t c
  | .insert t c ref => insertN s t c ref
  | .detach c => detach s c
  | .remove t c => removeN s t c

/-- Run a call sequence; a thrown exception aborts the rest. -/
def run (s : Heap) : List Op → Except Err Heap
  | [] => .ok s
  | op :: rest =>
      match step s op with
      | .error e => .error e
      | .ok s1 => run s1 rest

/-- A heap of factory-built nodes that have never been linked: id 0 holds
the null sentinel, every other id holds a fresh node of the kind the
factory assignment `ty` gave it (never the null kind). -/
def initHeap (ty : ID → NodeRec) : Heap :=
  fun i => if i = nullId then nullRec else ty i

/-! ### The well-formedness invariant

`WF s cl` says the heap `s` is an honest forest of doubly-linked sibling
lists: `cl p` names, in order, the direct children of node `p`, the parent
back-references agree with membership, the sibling pointers spell out each
list, `first`/`last` point at the list ends, and `size` is the length. -/
structure WF (s : Heap) (cl : ID → List ID) : Prop where
  mem : ∀ c p, (s c).sup = some p ↔ c ∈ cl p
  nodup : ∀ p, (cl p).Nodup
  first_eq : ∀ p, (s p).first = (cl p).head?
  last_eq : ∀ p, (s p).last = (cl p).getLast?
  nxt : ∀ p, (cl p).Chain' (fun a b => (s a).next = some b)
  prv : ∀ p, (cl p).Chain' (fun a b => (s b).prev = some a)
  last_nxt : ∀ p a, (cl p).getLast? = some a → (s a).next = none
  head_prv : ∀ p a, (cl p).head? = some a → (s a).prev = none
  size_eq : ∀ p, (s p).size = ((cl p).length : Int)

/-- The legality side condition: `insert` must not be handed the same node
as both child and reference (explicitly, or implicitly through the default
reference when the child already is the first child).  The JS code corrupts
the sibling ring in that case. -/
def stepOKb (s : Heap) : Op → Bool
  | .insert t c ref =>
      match ref with
      | some r => c ≠ r
      | none => (s t).first ≠ some c
  | _ => true

def legalB (s : Heap) : List Op → Bool
  | [] => true
  | op :: rest =>
      stepOKb s op &&
        (match step s op with
         | .ok s1 => legalB s1 rest
         | .error _ => true)

/-- A concrete factory assignment: node 1 is a tag, everything else text. -/
def ty4 : ID → NodeRec := fun i => if i = 1 then tagRec [] else textRec []

/-- Append node 2 to tag 1, then insert node 2 before itself: the call
sequence whose second call the JS code accepts but corrupts on. -/
def ops4 : List Op := [Op.append 1 2, Op.insert 1 2 (some 2)]

/-- The heap the corrupting sequence leaves behind. -/
def c4state : Heap :=
  match run (initHeap ty4) ops4 with
  | .ok s => s
  | .error _ => initHeap ty4

/-- The heap after legally appending node 2 to tag 1. -/
def c4wstate : Heap :=
  match run (initHeap ty4) [Op.append 1 2] with
  | .ok s => s
  | .error _ => initHeap ty4

/-- The heap after `t.append(a); t.insert(b)` with the reference omitted. -/
def c1state : Heap :=
  match run (initHeap ty4) [Op.append 1 2, Op.insert 1 3 none] with
  | .ok s => s
  | .error _ => initHeap ty4

/-- The heap after inserting node 2 into the empty tag 1 with no
reference. -/
def c1wstate : Heap :=
  match insertN (initHeap ty4) 1 2 none with
  | .ok s => s
  | .error _ => initHeap ty4

/-! ### Entities: UXMLParser.unescape and UXMLFormatter.escape

Strings are code-point lists; the relevant code points: `&` 38, `;` 59,
`#` 35, `x` 120, `<` 60, `>` 62, `"` 34, `'` 39, `+` 43, `-` 45, `0` 48. -/

/-- JS whitespace accepted by `parseInt` before the number. -/
def isJsWs (c : Nat) : Bool :=
  (9 ≤ c && c ≤ 13) || c = 32 || c = 160 || c = 0x2028 || c = 0x2029 || c = 0xFEFF

/-- The numeric value of one digit character in bases up to 36. -/
def digitVal (c : Nat) : Option Nat :=
  if 48 ≤ c ∧ c ≤ 57 then some (c - 48)
  else if 97 ≤ c ∧ c ≤ 122 then some (c - 87)
  else if 65 ≤ c ∧ c ≤ 90 then some (c - 55)
  else none

/-- Greedy digit prefix in the given radix: accumulated value and how many
digits were consumed. -/
def takeDigits (radix : Nat) : Nat → Nat → Str → Nat × Nat
  | acc, cnt, [] => (acc, cnt)
  | acc, cnt, c :: r =>
      match digitVal c with
      | some d => if d < radix then takeDigits radix (acc * radix + d) (cnt + 1) r
                  else (acc, cnt)
      | none => (acc, cnt)

/-- JS `parseInt(str, radix)`: skip whitespace, optional sign, for radix 16
an optional `0x`/`0X` prefix, then the maximal digit prefix; `none` is
`NaN` (no digit found). -/
def parseIntJS (radix : Nat) (l : Str) : Option Int :=
  let l1 := l.dropWhile isJsWs
  let signed : Int × Str :=
    match l1 with
    | 43 :: r => (1, r)
    | 45 :: r => (-1, r)
    | _ => (1, l1)
  let body :=
    if radix = 16 then
      match signed.2 with
      | 48 :: 120 :: r => r
      | 48 :: 88 :: r => r
      | r => r
    else signed.2
  match takeDigits radix 0 0 body with
  | (_, 0) => none
  | (v, _) => some (signed.1 * (v : Int))

/-- The numeric part of `&#...;`: `ent.substring(1)` after the `#`;
hexadecimal when it starts with a lowercase `x`. -/
def numEntityVal (ds : Str) : Option Int :=
  if ds.head? = some 120 then parseIntJS 16 (ds.drop 1)
  else parseIntJS 10 ds

/-- `String.fromCodePoint`: out-of-range arguments throw RangeError. -/
def fromCodePoint (v : Int) : Option Nat :=
  if 0 ≤ v ∧ v ≤ 0x10FFFF then some v.toNat else none

/-- The five symbolic entities of the `switch` in `unescape`. -/
def entChar (ent : Str) : Option Nat :=
  if ent = [108, 116] then some 60
  else if ent = [103, 116] then some 62
  else if ent = [113, 117, 111, 116] then some 34
  else if ent = [97, 112, 111, 115] then some 39
  else if ent = [97, 109, 112] then some 38
  else none

/-- Results of `UXMLParser.unescape`: a decoded string, the `null` error
sentinel, or a thrown RangeError from `String.fromCodePoint`. -/
inductive URes
  | ok (out : Str)
  | nullErr
  | crash
deriving DecidableEq, Repr

def consURes (c : Nat) : URes → URes
  | .ok out => .ok (c :: out)
  | e => e

def prependURes (l : Str) : URes → URes
  | .ok out => .ok (l ++ out)
  | e => e

/-- The scanning loop of `unescape`, lines 421-473, one character at a
time: outside an escape (`none`) copy text and watch for `&`; inside an
escape (`some entR`, the entity name so far, reversed) accumulate until the
terminating `;` — reaching the end first is the unterminated-escape `null`.
At the `;`: numeric entities decode through `parseInt`/`fromCodePoint`
(`NaN` is `null`), the five symbolic names decode to their characters, and
any other name is copied through verbatim (`default: from = escStart`),
scanning resuming after the `;`. -/
def unescAux : Option Str → Str → URes
  | none, [] => .ok []
  | none, c :: r =>
      if c = 38 then unescAux (some []) r
      else consURes c (unescAux none r)
  | some _, [] => .nullErr
  | some entR, c :: r =>
      if c = 59 then
        let ent := entR.reverse
        if ent.head? = some 35 then
          match numEntityVal (ent.drop 1) with
          | none => .nullErr
          | some v =>
              match fromCodePoint v with
              | none => .crash
              | some cp => consURes cp (unescAux none r)
        else
          match entChar ent with
          | some ch => consURes ch (unescAux none r)
          | none => prependURes (38 :: ent ++ [59]) (unescAux none r)
      else unescAux (some (c :: entR)) r

/-- `UXMLParser.unescape`. -/
def unesc (l : Str) : URes := unescAux none l

/-- What happens at the `;` of an escape whose name is `ent`. -/
def entDecide (ent : Str) (r : Str) : URes :=
  if ent.head? = some 35 then
    match numEntityVal (ent.drop 1) with
    | none => .nullErr
    | some v =>
        match fromCodePoint v with
        | none => .crash
        | some cp => consURes cp (unescAux none r)
  else
    match entChar ent with
    | some ch => consURes ch (unescAux none r)
    | none => prependURes (38 :: ent ++ [59]) (unescAux none r)

/-- The decimal digits of a number, as code points. -/
def decDigits (n : Nat) : Str := (Nat.toDigits 10 n).map Char.toNat

/-- The replacement text `UXMLFormatter.escape` emits for one matched
character: named entities for the five XML specials, `&#N;` for any other
member of the escape set. -/
def escEnt (c : Nat) : Str :=
  if c = 60 then [38, 108, 116, 59]
  else if c = 62 then [38, 103, 116, 59]
  else if c = 34 then [38, 113, 117, 111, 116, 59]
  else if c = 39 then [38, 97, 112, 111, 115, 59]
  else if c = 38 then [38, 97, 109, 112, 59]
  else 38 :: 35 :: decDigits c ++ [59]

/-- `UXMLFormatter.escape`: the regex-exec loop copies unmatched text and
replaces each matched character; with the character-class regexes the code
builds, that is exactly a per-character map over the escape set `p`. -/
def escape (p : Nat → Bool) : Str → Str
  | [] => []
  | c :: r => (if p c then escEnt c else [c]) ++ escape p r

/-- The default escape pattern `/[<>"'&]/g`. -/
def escDefault (c : Nat) : Bool :=
  (c == 60) || (c == 62) || (c == 34) || (c == 39) || (c == 38)

/-! ### The parser (UXMLParser.parse)

The JS scanner mutates `pos`, `chr`, `p`, `posNs` and friends; they become
fields of an explicit state record.  `chr` is `Option Nat`: `none` is the
`NaN` of an out-of-bounds `charCodeAt`, for which every comparison the code
makes is false.  Each `while` loop becomes fuel-based recursion; the fuel
handed to a loop at its call site strictly exceeds the characters it can
scan, so the fuel-out branches are unreachable on any input. -/

/-- `input.charCodeAt(i)`. -/
def chAt (inp : Str) (i : Nat) : Option Nat := inp.get? i

/-- `chr === b` (false for NaN). -/
def cEq (a : Option Nat) (b : Nat) : Bool := a = some b

/-- `chr <= b` (false for NaN). -/
def cLe (a : Option Nat) (b : Nat) : Bool :=
  match a with
  | some v => v ≤ b
  | none => false

/-- `chr > b` (false for NaN). -/
def cGt (a : Option Nat) (b : Nat) : Bool :=
  match a with
  | some v => b < v
  | none => false

/-- `chr < b` (false for NaN). -/
def cLt (a : Option Nat) (b : Nat) : Bool :=
  match a with
  | some v => v < b
  | none => false

/-- `input.substring(a, b)`. -/
def subStr (inp : Str) (a b : Nat) : Str := (inp.drop a).take (b - a)

/-- `UXML.charLut[0]`: the name-continue class, transcribed row for row
from lines 1205-1222 of the source. -/
def charLut0 : List Bool :=
  [false, false, false, false, false, false, false, false,
   false, false, false, false, false, false, false, false,
   false, false, false, false, false, false, false, false,
   false, false, false, false, false, false, false, false,
   false, false, false, false, false, false, false, false,
   false, false, false, false, false, true,  false, false,
   true,  true,  true,  true,  true,  true,  true,  true,
   true,  true,  false, false, false, false, false, false,
   false, true,  true,  true,  true,  true,  true,  true,
   true,  true,  true,  true,  true,  true,  true,  true,
   true,  true,  true,  true,  true,  true,  true,  true,
   true,  true,  true,  false, false, false, false, true,
   false, true,  true,  true,  true,  true,  true,  true,
   true,  true,  true,  true,  true,  true,  true,  true,
   true,  true,  true,  true,  true,  true,  true,  true,
   true,  true,  true,  false, false, false, false, false]

/-- `UXML.charLut[1]`: the name-start class, lines 1222-1239. -/
def charLut1 : List Bool :=
  [false, false, false, false, false, false, false, false,
   false, false, false, false, false, false, false, false,
   false, false, false, false, false, false, false, false,
   false, false, false, false, false, false, false, false,
   false, false, false, false, false, false, false, false,
   false, false, false, false, false, true,  false, false,
   false, false, false, false, false, false, false, false,
   false, false, false, false, false, false, false, false,
   false, true,  true,  true,  true,  true,  true,  true,
   true,  true,  true,  true,  true,  true,  true,  true,
   true,  true,  true,  true,  true,  true,  true,  true,
   true,  true,  true,  false, false, false, false, true,
   false, true,  true,  true,  true,  true,  true,  true,
   true,  true,  true,  true,  true,  true,  true,  true,
   true,  true,  true,  true,  true,  true,  true,  true,
   true,  true,  true,  false, false, false, false, false]

/-- `UXML.charLut[toInteger(pos === start)][chr]`. -/
def lut (firstChar : Bool) (c : Nat) : Bool :=
  ((if firstChar then charLut1 else charLut0).get? c).getD false

/-- The result kinds of `UXMLParser.parse` and its token handlers. -/
inductive PFail
  | syn
  | crash
  | fuelOut
deriving DecidableEq, Repr

/-- Token kinds of `tokenKind()`. -/
inductive Tkn
  | tnone
  | tagStart
  | attr
  | attrEq
  | attrVal
  | tagClose
  | tagEnd
  | tpi
  | tcomment
  | tcdata
  | ttext
deriving DecidableEq, Repr

/-- The parser's mutable variables, plus the growing node heap and the
allocation counter for fresh node ids (id 0 stays the null sentinel). -/
structure PSt where
  heap : Heap
  nxt : ID
  pos : Nat
  chr : Option Nat
  p : Nat
  posNs : Nat
  decl : Bool
  scope : Bool
  wspaceTrail : Bool
  root : Option ID
  currNode : Option ID
  currTag : Str
  currAttr : Str
  pi : List Str
  doc : Option (List Str × ID)
  endPos : Nat

/-- `skipChar (num)`. -/
def skipChar (inp : Str) (st : PSt) (num : Nat) : PSt :=
  { st with pos := st.pos + num, chr := chAt inp (st.pos + num) }

/-- `skipSpace()`. -/
def skipSpaceF (inp : Str) (len : Nat) : Nat → PSt → Bool × PSt
  | 0, st => (false, st)
  | fuel + 1, st =>
      if st.pos ≠ len then
        let st2 := { st with chr := chAt inp st.pos }
        if cGt st2.chr 32 then (true, st2)
        else skipSpaceF inp len fuel { st2 with pos := st2.pos + 1 }
      else (false, st)

/-- `skipTag (closing)`, with `start` the captured entry position. -/
def skipTagF (inp : Str) (len : Nat) (closing : Bool) (start : Nat) :
    Nat → PSt → Bool × PSt
  | 0, st => (false, st)
  | fuel + 1, st =>
      if st.pos ≠ len then
        let st2 := { st with chr := chAt inp st.pos }
        if cEq st2.chr 62 then (st2.posNs ≠ st2.pos - 1, st2)
        else if cEq st2.chr 47 then (!closing && st2.posNs ≠ st2.pos - 1, st2)
        else if cLe st2.chr 32 then (!closing && st2.posNs ≠ st2.pos - 1, st2)
        else if cEq st2.chr 58 then
          if st2.posNs ≠ 0 then (false, st2)
          else if st2.pos = start then (false, st2)
          else skipTagF inp len closing start fuel
            { st2 with posNs := st2.pos, pos := st2.pos + 1 }
        else if cLt st2.chr 128 && !(lut (st2.pos = start) (st2.chr.getD 0)) then
          (false, st2)
        else skipTagF inp len closing start fuel { st2 with pos := st2.pos + 1 }
      else (false, st)

/-- `skipAttr()`, with `start` the captured entry position. -/
def skipAttrF (inp : Str) (len : Nat) (start : Nat) : Nat → PSt → Bool × PSt
  | 0, st => (false, st)
  | fuel + 1, st =>
      if st.pos ≠ len then
        let st2 := { st with chr := chAt inp st.pos }
        if cEq st2.chr 61 then (st2.posNs ≠ st2.pos - 1, st2)
        else if cEq st2.chr 58 then
          if st2.posNs ≠ 0 then (false, st2)
          else if st2.pos = start then (false, st2)
          else skipAttrF inp len start fuel
            { st2 with posNs := st2.pos, pos := st2.pos + 1 }
        else if cLt st2.chr 128 && !(lut (st2.pos = start) (st2.chr.getD 0)) then
          (false, st2)
        else skipAttrF inp len start fuel { st2 with pos := st2.pos + 1 }
      else (false, st)

/-- `skipToValue()`. -/
def skipToValue (inp : Str) (st : PSt) : Bool × PSt :=
  let st2 := { st with chr := chAt inp st.pos }
  (cEq st2.chr 34 || cEq st2.chr 39, st2)

/-- `skipValue()`: scan for the quote character held in `chr`. -/
def skipValueF (inp : Str) (len : Nat) : Nat → PSt → Bool × PSt
  | 0, st => (false, st)
  | fuel + 1, st =>
      if st.pos ≠ len then
        if chAt inp st.pos = st.chr then (true, st)
        else skipValueF inp len fuel { st with pos := st.pos + 1 }
      else (false, st)

/-- `skipText()`. -/
def skipTextF (inp : Str) (len : Nat) : Nat → PSt → Bool × PSt
  | 0, st => (false, st)
  | fuel + 1, st =>
      if st.pos ≠ len then
        let st2 := { st with chr := chAt inp st.pos }
        if cEq st2.chr 60 then (true, st2)
        else skipTextF inp len fuel { st2 with pos := st2.pos + 1 }
      else (false, st)

/-- `skipCDATA()`: stop at `]]>`. -/
def skipCDATAF (inp : Str) (len : Nat) : Nat → PSt → Bool × PSt
  | 0, st => (false, st)
  | fuel + 1, st =>
      if st.pos ≠ len then
        let st2 := { st with chr := chAt inp st.pos }
        if cEq st2.chr 93 && cEq (chAt inp (st2.pos + 1)) 93
            && cEq (chAt inp (st2.pos + 2)) 62 then (true, st2)
        else skipCDATAF inp len fuel { st2 with pos := st2.pos + 1 }
      else (false, st)

/-- `skipComment()`: stop at `-->`. -/
def skipCommentF (inp : Str) (len : Nat) : Nat → PSt → Bool × PSt
  | 0, st => (false, st)
  | fuel + 1, st =>
      if st.pos ≠ len then
        let st2 := { st with chr := chAt inp st.pos }
        if cEq st2.chr 45 && cEq (chAt inp (st2.pos + 1)) 45
            && cEq (chAt inp (st2.pos + 2)) 62 then (true, st2)
        else skipCommentF inp len fuel { st2 with pos := st2.pos + 1 }
      else (false, st)

/-- The `do { if (++pos === len) return false; chr = …; } while (chr <= 32)`
whitespace hops inside `skipPi`: `none` means the input ran out. -/
def piWs (inp : Str) (len : Nat) : Nat → Nat → Option (Nat × Option Nat)
  | 0, _ => none
  | fuel + 1, pos =>
      let pos2 := pos + 1
      if pos2 = len then none
      else
        let c := chAt inp pos2
        if cLe c 32 then piWs inp len fuel pos2 else some (pos2, c)

/-- The string-aware normalizing scan of `skipPi`, lines 663-716: walk the
instruction, toggling `string` on quotes (note the JS precedence:
`!string && chr === DQ || chr === SQ`), collapsing whitespace runs outside
strings into the accumulator `o`, and stopping at `?>` (pushes
`<?…?>`, sets `decl`) or at a bare `>` for `<!…>` instructions (pushes
without setting `decl`).  `none` is the JS `return false`. -/
def piScanF (inp : Str) (len : Nat) (x : Bool) :
    Nat → Str → Bool → Nat → Nat → Nat → Option Nat → Bool → List Str →
    Option (Nat × Option Nat × Bool × List Str)
  | 0, _, _, _, _, _, _, _, _ => none
  | fuel + 1, o, string, q, p, pos, chr, decl, pi =>
      let adv : Bool → Nat → Option (Nat × Option Nat × Bool × List Str) :=
        fun string2 q2 =>
          let pos2 := pos + 1
          if pos2 = len then none
          else
            let chr2 := chAt inp pos2
            if cGt chr2 32 then piScanF inp len x fuel o string2 q2 p pos2 chr2 decl pi
            else
              let o2 := o ++ subStr inp p pos2
              match piWs inp len fuel pos2 with
              | none => none
              | some (pos3, chr3) =>
                  let o3 := if string2 || (!(cEq chr3 63) && !(cEq chr3 62))
                            then o2 ++ [32] else o2
                  piScanF inp len x fuel o3 string2 q2 pos3 pos3 chr3 decl pi
      if string && cEq chr q then adv false q
      else if (!string && cEq chr 34) || cEq chr 39 then adv true (chr.getD 0)
      else if !string && cEq chr 63 then
        if x || !(cEq (chAt inp (pos + 1)) 62) then none
        else some (pos + 1, chr, true,
          pi ++ [[60, 63] ++ o ++ subStr inp p pos ++ [63, 62]])
      else if !string && cEq chr 62 then
        if !x then none
        else some (pos, chr, decl, pi ++ [[60, 33] ++ o ++ subStr inp p pos])
      else adv string q

/-- `skipPi()`, lines 640-717. -/
def skipPiF (inp : Str) (len : Nat) (st : PSt) : Bool × PSt :=
  let x := cEq st.chr 33
  match piWs inp len (len + 2) st.pos with
  | none => (false, st)
  | some (pos1, chr1) =>
      match piScanF inp len x (len + 2) [] false 0 pos1 pos1 chr1 st.decl st.pi with
      | none => (false, st)
      | some (pos2, chr2, decl2, pi2) =>
          (true, { st with pos := pos2, chr := chr2, decl := decl2, pi := pi2, p := pos1 })

/-- The `while (input.charCodeAt(wp) <= 32) ++wp` scan of `getText`. -/
def firstNonWs (inp : Str) : Nat → Nat → Nat
  | 0, i => i
  | fuel + 1, i => if cLe (chAt inp i) 32 then firstNonWs inp fuel (i + 1) else i

/-- The `while (input.charCodeAt(wpos - 1) <= 32) --wpos` scan of
`getText`. -/
def lastNonWs (inp : Str) : Nat → Nat → Nat
  | 0, i => i
  | fuel + 1, i => if cLe (chAt inp (i - 1)) 32 then lastNonWs inp fuel (i - 1) else i

/-- One character of the wspace pattern `[\t\n\r\x20]+`. -/
def isWsRun (c : Nat) : Bool := c = 9 || c = 10 || c = 13 || c = 32

/-- `.replace (UXML.pattern.wspace, " ")`: collapse every run of pattern
whitespace to one space. -/
def collapseWsF : Nat → Str → Str
  | 0, _ => []
  | _, [] => []
  | fuel + 1, c :: r =>
      if isWsRun c then 32 :: collapseWsF fuel (r.dropWhile isWsRun)
      else c :: collapseWsF fuel r

/-- `.replace (UXML.pattern.wspace, " ")` with enough fuel: each step
consumes at least one character, so `length + 1` steps always finish. -/
def collapseWs (l : Str) : Str := collapseWsF (l.length + 1) l

/-- `getText (first, ends)`, lines 735-775: trim boundary whitespace,
maintain the trailing-space flag across siblings, collapse internal runs.
Returns the text and the new `wspaceTrail`. -/
def getTextF (inp : Str) (len : Nat) (st : PSt) (first ends : Bool) : Str × Bool :=
  let wp := firstNonWs inp (len + 2) st.p
  if wp = st.pos then
    if !ends && !first && !st.wspaceTrail then ([32], true)
    else ([], false)
  else
    let wl : Str := if wp ≠ st.p && !first && !st.wspaceTrail then [32] else []
    let wpos2 := lastNonWs inp (len + 2) st.pos
    if wpos2 ≠ st.pos && !ends then
      (wl ++ collapseWs (subStr inp wp wpos2) ++ [32], true)
    else
      (wl ++ collapseWs (subStr inp wp wpos2), false)

/-- `tokenKind()`, lines 779-828: classify the current position, consuming
the `<` lookahead exactly as the source does. -/
def tokenKindF (inp : Str) (st : PSt) : Tkn × PSt :=
  if st.scope = false then
    if cEq st.chr 60 then
      let st1 := skipChar inp st 1
      if cEq st1.chr 33 then
        if cEq (chAt inp (st1.pos + 1)) 45 && cEq (chAt inp (st1.pos + 2)) 45 then
          (.tcomment, { st1 with pos := st1.pos + 3 })
        else if cEq (chAt inp (st1.pos + 1)) 91 && cEq (chAt inp (st1.pos + 7)) 91
            && cEq (chAt inp (st1.pos + 2)) 67 && cEq (chAt inp (st1.pos + 3)) 68
            && cEq (chAt inp (st1.pos + 4)) 65 && cEq (chAt inp (st1.pos + 5)) 84
            && cEq (chAt inp (st1.pos + 6)) 65 then
          (.tcdata, { st1 with pos := st1.pos + 8 })
        else (.tpi, st1)
      else if cEq st1.chr 63 then (.tpi, st1)
      else if cLe st1.chr 32 then (.ttext, { st1 with pos := st1.pos - 1 })
      else (.tagStart, st1)
    else
      if st.root ≠ none then (.ttext, st)
      else if cLe st.chr 32 then (.tnone, st)
      else (.ttext, st)
  else
    if cEq st.chr 61 then (.attrEq, st)
    else if cEq st.chr 34 then (.attrVal, st)
    else if cEq st.chr 39 then (.attrVal, st)
    else if cEq st.chr 47 then (.tagClose, st)
    else if cEq st.chr 62 then (.tagEnd, st)
    else if cGt st.chr 32 then (.attr, st)
    else (.tnone, st)

/-- `getTag()` / `getAttr()` reset `posNs` after capturing the token. -/
def getTagF (inp : Str) (st : PSt) : PSt :=
  { st with currTag := subStr inp st.p st.pos, posNs := 0 }

def getAttrF (inp : Str) (st : PSt) : PSt :=
  { st with currAttr := subStr inp st.p st.pos, posNs := 0 }

/-- `processToken()`, lines 832-953.  `Except.error .syn` is `return
false`; `.crash` is an unguarded JS `TypeError` (dereferencing the absent
`currNode`, or `input[pos+1]` being `undefined`). -/
def processTokenF (inp : Str) (len : Nat) (embedded : Bool) (st0 : PSt) :
    Except PFail PSt :=
  let fl := len + 2
  let (tk, st) := tokenKindF inp st0
  match tk with
  | .tagStart =>
      if cEq st.chr 47 then
        -- the tag is closing
        let stp := { st with pos := st.pos + 1, p := st.pos + 1 }
        match skipTagF inp len true stp.pos fl stp with
        | (false, _) => .error .syn
        | (true, st2) =>
            let st3 := getTagF inp st2
            match st3.currNode with
            | none => .error .crash
            | some cn =>
                if (st3.heap cn).name = some st3.currTag then
                  match (st3.heap cn).sup with
                  | none =>
                      .ok { st3 with endPos := st3.pos + 1, pos := len }
                  | some sn =>
                      .ok (skipChar inp { st3 with currNode := some sn } 1)
                else .error .syn
      else
        -- the tag is opening
        let stp := { st with p := st.pos }
        match skipTagF inp len false stp.pos fl stp with
        | (false, _) => .error .syn
        | (true, st2) =>
            let st3 := getTagF inp st2
            if st3.root = none then
              if st3.decl = false then
                .ok { st3 with heap := sNew st3.heap st3.nxt (tagRec st3.currTag), nxt := st3.nxt + 1, root := some st3.nxt, currNode := some st3.nxt, scope := true }
              else
                .ok { st3 with heap := sNew st3.heap st3.nxt (tagRec st3.currTag), nxt := st3.nxt + 1, root := some st3.nxt, currNode := some st3.nxt, doc := some (st3.pi, st3.nxt), scope := true }
            else
              match st3.currNode with
              | none => .error .crash
              | some cn =>
                  let h1 := sNew st3.heap st3.nxt (tagRec st3.currTag)
                  match appendN h1 cn st3.nxt with
                  | .error _ => .error .crash
                  | .ok h2 =>
                      .ok { st3 with heap := h2, nxt := st3.nxt + 1, currNode := some st3.nxt, scope := true }
  | .attr =>
      let stp := { st with p := st.pos }
      match skipAttrF inp len stp.pos fl stp with
      | (false, _) => .error .syn
      | (true, st2) => .ok (getAttrF inp st2)
  | .attrEq =>
      let st1 := { st with pos := st.pos + 1 }
      match skipToValue inp st1 with
      | (false, _) => .error .syn
      | (true, st2) =>
          let st3 := { st2 with pos := st2.pos + 1, p := st2.pos + 1 }
          match skipValueF inp len fl st3 with
          | (false, _) => .error .syn
          | (true, st4) =>
              let text := collapseWs (subStr inp st4.p st4.pos)
              match st4.currNode with
              | none => .error .crash
              | some cn =>
                  .ok (skipChar inp
                    { st4 with heap := sAttrSet st4.heap cn st4.currAttr text } 1)
  | .tagClose =>
      let st1 := skipChar inp st 1
      if cEq st1.chr 62 then
        match st1.currNode with
        | none => .error .crash
        | some cn =>
            match (st1.heap cn).sup with
            | none => .ok { st1 with endPos := st1.pos + 1, pos := len }
            | some sn => .ok { st1 with currNode := some sn }
      else .error .syn
  | .tagEnd => .ok { skipChar inp st 1 with scope := false }
  | .tcdata =>
      let stp := { st with p := st.pos }
      match skipCDATAF inp len fl stp with
      | (false, _) => .error .syn
      | (true, st2) =>
          match st2.currNode with
          | none => .error .crash
          | some cn =>
              let h1 := sNew st2.heap st2.nxt (cdataRec (subStr inp st2.p st2.pos))
              match appendN h1 cn st2.nxt with
              | .error _ => .error .crash
              | .ok h2 =>
                  .ok (skipChar inp { st2 with heap := h2, nxt := st2.nxt + 1 } 3)
  | .tcomment =>
      let stp := { st with p := st.pos }
      match skipCommentF inp len fl stp with
      | (false, _) => .error .syn
      | (true, st2) =>
          match st2.currNode with
          | none => .error .crash
          | some cn =>
              let h1 := sNew st2.heap st2.nxt (commentRec (subStr inp st2.p st2.pos))
              match appendN h1 cn st2.nxt with
              | .error _ => .error .crash
              | .ok h2 =>
                  .ok (skipChar inp { st2 with heap := h2, nxt := st2.nxt + 1 } 3)
  | .tpi =>
      if embedded then .error .syn
      else
        match skipPiF inp len st with
        | (false, _) => .error .syn
        | (true, st2) => .ok (skipChar inp st2 1)
  | .ttext =>
      let stp := { st with p := st.pos }
      match skipTextF inp len fl stp with
      | (false, _) => .error .syn
      | (true, st2) =>
          match st2.currNode with
          | none => .error .crash
          | some cn =>
              match chAt inp (st2.pos + 1) with
              | none => .error .crash
              | some c2 =>
                  let first := (st2.heap cn).size = 0
                  let ends := c2 = 47
                  let (text, trail) := getTextF inp len st2 first ends
                  let st3 := { st2 with wspaceTrail := trail }
                  if text.length ≠ 0 then
                    match unesc text with
                    | .nullErr => .error .syn
                    | .crash => .error .crash
                    | .ok decoded =>
                        let h1 := sNew st3.heap st3.nxt (textRec decoded)
                        match appendN h1 cn st3.nxt with
                        | .error _ => .error .crash
                        | .ok h2 => .ok { st3 with heap := h2, nxt := st3.nxt + 1 }
                  else .ok st3
  | .attrVal => .ok st
  | .tnone => .ok (skipSpaceF inp len (len + 2) st).2

/-- The `while (pos !== len) processToken()` driver. -/
def parseLoopF (inp : Str) (len : Nat) (embedded : Bool) :
    Nat → PSt → Except PFail PSt
  | 0, _ => .error .fuelOut
  | fuel + 1, st =>
      if st.pos ≠ len then
        match processTokenF inp len embedded st with
        | .error e => .error e
        | .ok st2 => parseLoopF inp len embedded fuel st2
      else .ok st

/-- What `UXMLParser.parse` hands back: a `UXMLDocument`, a bare node, or
— when a mid-document `<?…?>` set `decl` after the root had already been
created without a document — the JS `undefined`. -/
inductive ParseRes
  | pdoc (pi : List Str) (root : ID) (h : Heap)
  | pnode (i : ID) (h : Heap)
  | pundef

/-- The initial parser heap: nothing allocated beyond the null sentinel. -/
def parseBaseHeap : Heap := initHeap (fun _ => textRec [])

/-- The initial parser state for `parse (input, pos, len)`. -/
def parseInit (inp : Str) (pos0 : Nat) : PSt :=
  { heap := parseBaseHeap, nxt := 1, pos := pos0, chr := some 0, p := pos0,
    posNs := 0, decl := false, scope := false, wspaceTrail := false,
    root := none, currNode := none, currTag := [], currAttr := [], pi := [],
    doc := none, endPos := 0 }

/-- `UXMLParser.parse (input, pos, len)` with `len = input.length`: run the
token loop, then `return decl ? doc : currNode`.  A `null` return (failure,
or no root at all) is `.error .syn`; `decl` true with no document built
returns the JS `undefined`. -/
def parseUXML (inp : Str) (pos0 : Nat) (fuel : Nat) : Except PFail ParseRes :=
  let len := inp.length
  let embedded := pos0 ≠ 0
  let st1 := (skipSpaceF inp len (len + 2) (parseInit inp pos0)).2
  match parseLoopF inp len embedded fuel st1 with
  | .error e => .error e
  | .ok st2 =>
      if st2.decl then
        match st2.doc with
        | some (dpi, rootId) => .ok (.pdoc dpi rootId st2.heap)
        | none => .ok .pundef
      else
        match st2.currNode with
        | some cn => .ok (.pnode cn st2.heap)
        | none => .error .syn

/-- `UXML.parse (input)`: parse from offset 0 and raise SyntaxError on a
`null` result (`.error .syn`); note `undefined` is not `null`, so the
`undefined` outcome escapes the check. -/
def uxmlParse (inp : Str) (fuel : Nat) : Except PFail ParseRes :=
  parseUXML inp 0 fuel

/-! ### Observing concrete parse results

`ParseRes` carries a heap, which is a function; statements about concrete
inputs therefore go through decidable projections of the result. -/

/-- Code points of a string literal, for writing concrete inputs. -/
def str (t : String) : Str := t.data.map Char.toNat

/-- Which outcome the parse produced: `SyntaxError` 0, crash 1, fuel-out 2,
`UXMLDocument` 3, bare node 4, JS `undefined` 5. -/
def pKind : Except PFail ParseRes → Nat
  | .error .syn => 0
  | .error .crash => 1
  | .error .fuelOut => 2
  | .ok (.pdoc _ _ _) => 3
  | .ok (.pnode _ _) => 4
  | .ok .pundef => 5

/-- The root node and heap of a successful structured parse. -/
def pRoot : Except PFail ParseRes → Option (ID × Heap)
  | .ok (.pdoc _ r h) => some (r, h)
  | .ok (.pnode i h) => some (i, h)
  | _ => none

/-- The PI list of a parsed `UXMLDocument`. -/
def pPis : Except PFail ParseRes → Option (List Str)
  | .ok (.pdoc pis _ _) => some pis
  | _ => none

/-- The root's tag name. -/
def pName (r : Except PFail ParseRes) : Option Str :=
  (pRoot r).bind fun q => (q.2 q.1).name

/-- The root's child count. -/
def pSize (r : Except PFail ParseRes) : Option Int :=
  (pRoot r).map fun q => (q.2 q.1).size

/-- The root's attribute list. -/
def pAttrs (r : Except PFail ParseRes) : Option (List (Str × Str)) :=
  (pRoot r).map fun q => (q.2 q.1).attrs

/-- The value stored on the root's first child. -/
def pChild1Val (r : Except PFail ParseRes) : Option Str :=
  (pRoot r).bind fun q =>
    match (q.2 q.1).first with
    | none => none
    | some c => (q.2 c).value

/-! ### The formatter (UXMLFormatter.format, lines 1010-1186)

`format` threads three mutable things through its closures: the output
array `buf`, the counter `currDepth`, and — because `canIndent` detaches
nodes — the heap itself.  They become a state record.  The character-class
regex built from `opts.codepts` enters the embedding as the predicate it
denotes (`escDefault` for the default `/[<>"'&]/ug`). -/

/-- Formatter failure channels: `throw new RangeError()` and the negative
`' '.repeat` count are `rangeErr`; a null/undefined dereference is a
TypeError `crash`. -/
inductive FFail
  | rangeErr
  | crash
  | fuelOut
deriving DecidableEq, Repr

/-- String coercion of a possibly-null value in a JS `+` concatenation:
`null` prints as `null`. -/
def jsVal : Option Str → Str
  | none => str "null"
  | some v => v

/-- `' '.repeat (n)`: RangeError on a negative count. -/
def repeatSp (n : Int) : Except FFail Str :=
  if n < 0 then .error .rangeErr else .ok (List.replicate n.toNat 32)

/-- `const eol = indent ? '\n' : ''`. -/
def eolOf (indent : Nat) : Str := if indent ≠ 0 then [10] else []

/-- The `ofSpace` helper of `canIndent`: no character code above 32. -/
def ofSpace : Str → Bool
  | [] => true
  | c :: r => if 32 < c then false else ofSpace r

/-- First `canIndent` loop (lines 1074-1086): scan the children; a
non-whitespace Text child or any CDATA child means no indentation.
`ofSpace (null)` is a TypeError. -/
def ciScan (s : Heap) : Nat → Option ID → Except FFail Bool
  | _, none => .ok true
  | 0, some _ => .error .fuelOut
  | fuel + 1, some c =>
      if (s c).type = NType.text then
        match (s c).value with
        | none => .error .crash
        | some v => if ofSpace v then ciScan s fuel ((s c).next) else .ok false
      else if (s c).type = NType.cdata then .ok false
      else ciScan s fuel ((s c).next)

/-- Second `canIndent` loop (lines 1089-1098): `next` is captured before
`sub.detach()`, then every Text child is detached.  `detach` on a node
with a null parent dereferences null. -/
def ciDetach (s : Heap) : Nat → Option ID → Except FFail Heap
  | _, none => .ok s
  | 0, some _ => .error .fuelOut
  | fuel + 1, some c =>
      let nxt := (s c).next
      if (s c).type = NType.text then
        match (s c).sup with
        | none => .error .crash
        | some p => ciDetach (detachAttached s c p) fuel nxt
      else ciDetach s fuel nxt

/-- `canIndent (node)` (lines 1059-1101): false immediately when `indent`
is zero; otherwise scan, and only when the scan passes run the detach loop
and answer true. -/
def canIndent (s : Heap) (indent : Nat) (i : ID) (fuel : Nat) :
    Except FFail (Bool × Heap) :=
  if indent = 0 then .ok (false, s)
  else
    match ciScan s fuel ((s i).first) with
    | .error e => .error e
    | .ok false => .ok (false, s)
    | .ok true =>
        match ciDetach s fuel ((s i).first) with
        | .error e => .error e
        | .ok s2 => .ok (true, s2)

/-- What the scan loop decides about one child: a Text child passes iff
its value is a whitespace-only string, a CDATA child never passes, any
other child always passes. -/
def ciOk (s : Heap) (c : ID) : Bool :=
  if (s c).type = NType.text then
    match (s c).value with
    | some v => ofSpace v
    | none => false
  else decide ((s c).type ≠ NType.cdata)

/-- The value `canIndent` computes for a tag with child list `l`. -/
def indentOkB (s : Heap) (indent : Nat) (l : List ID) : Bool :=
  decide (indent ≠ 0) && l.all (ciOk s)

/-- Formatter state: the heap (mutated by `canIndent`), the `buf` output
array, and `currDepth`. -/
structure FmtSt where
  heap : Heap
  buf : List Str
  currDepth : Int

/-- `' ' + attr + '="' + escape (value) + '"'` over the attribute list
(lines 1148-1150). -/
def attrsOut (esc : Nat → Bool) : List (Str × Str) → Str
  | [] => []
  | (a, v) :: r => 32 :: (a ++ [61, 34] ++ escape esc v ++ [34]) ++ attrsOut esc r

/-- The two recursions of `outputNode`: the body (lines 1122-1177) and its
`while (first)` child loop, merged into one fuel recursion. -/
inductive OCall
  | onode (i : ID) (omitS : Bool) (pind : Nat)
  | okids (c : Option ID) (indented : Nat)

/-- `outputNode (outNode, omitSelf, pindented)`: `pindented` and
`indented` are the JS numbers `indent * !!pindented` and
`indent * (pindented && canIndent (outNode))`. -/
def outputF (indent : Nat) (esc : Nat → Bool) :
    Nat → FmtSt → OCall → Except FFail FmtSt
  | 0, _, _ => .error .fuelOut
  | _ + 1, st, .okids none _ => .ok st
  | fuel + 1, st, .okids (some c) ind =>
      match outputF indent esc fuel st (.onode c false ind) with
      | .error e => .error e
      | .ok st2 =>
          let nxt := (st2.heap c).next
          let st3 := if ind ≠ 0 ∧ nxt ≠ none then { st2 with buf := st2.buf ++ [eolOf indent] } else st2
          outputF indent esc fuel st3 (.okids nxt ind)
  | fuel + 1, st, .onode i omitS pind =>
      match (if pind ≠ 0 then canIndent st.heap indent i (fuel + 1) else .ok (false, st.heap)) with
      | .error e => .error e
      | .ok (ci, h1) =>
          let indented : Nat := if ci then indent else 0
          let pind2 : Nat := if pind ≠ 0 then indent else 0
          let st1 : FmtSt := { heap := h1, buf := st.buf, currDepth := st.currDepth }
          if (h1 i).type = NType.text then
            match (h1 i).value with
            | none => .error .crash
            | some v => .ok { st1 with buf := st1.buf ++ [escape esc v] }
          else if (h1 i).type = NType.cdata then
            .ok { st1 with buf := st1.buf ++ [str "<![CDATA[" ++ jsVal ((h1 i).value) ++ str "]]>"] }
          else if (h1 i).type = NType.comment then
            match repeatSp (st1.currDepth * (pind2 : Int)) with
            | .error e => .error e
            | .ok sp => .ok { st1 with buf := st1.buf ++ [sp ++ str "<!--" ++ jsVal ((h1 i).value) ++ str "-->"] }
          else
            let first0 := (h1 i).first
            if omitS then
              outputF indent esc fuel st1 (.okids first0 indented)
            else
              match repeatSp (st1.currDepth * (pind2 : Int)) with
              | .error e => .error e
              | .ok sp =>
                  let nm := jsVal ((h1 i).name)
                  let opTag := sp ++ [60] ++ nm ++ attrsOut esc ((h1 i).attrs)
                  if first0 = none then
                    .ok { st1 with buf := st1.buf ++ [opTag ++ str "/>"] }
                  else
                    let st2 : FmtSt := { heap := h1, buf := st1.buf ++ [opTag ++ [62] ++ (if indented ≠ 0 then eolOf indent else [])], currDepth := st1.currDepth + 1 }
                    match outputF indent esc fuel st2 (.okids first0 indented) with
                    | .error e => .error e
                    | .ok st3 =>
                        let st4 : FmtSt := { heap := st3.heap, buf := st3.buf, currDepth := st3.currDepth - 1 }
                        match repeatSp (st4.currDepth * (indented : Int)) with
                        | .error e => .error e
                        | .ok sp2 =>
                            .ok { st4 with buf := st4.buf ++ [(if indented ≠ 0 then eolOf indent else []) ++ sp2 ++ str "</" ++ nm ++ [62]] }

/-- What `format` receives: a `UXMLDocument` (PI list plus root id) or a
plain node. -/
inductive FInput
  | fdoc (pi : List Str) (root : ID)
  | fnode (i : ID)

/-- The formatter options record (`UXML.defFmtOpts` shape). -/
structure FmtOpts where
  omitSelf : Bool
  noIndentFirst : Bool
  depth : Int

/-- The tail of `format` shared by both inputs: run `outputNode (node,
opts.omitSelf, true)` on the initial buffer, apply the `noIndentFirst`
trim of `buf[0]` — a TypeError when `buf` is empty — and join. -/
def formatRun (h : Heap) (node : ID) (buf0 : List Str) (indent : Nat)
    (opts : FmtOpts) (esc : Nat → Bool) (fuel : Nat) : Except FFail Str :=
  match outputF indent esc fuel ⟨h, buf0, opts.depth⟩ (.onode node opts.omitSelf 1) with
  | .error e => .error e
  | .ok stf =>
      if opts.noIndentFirst then
        match stf.buf with
        | [] => .error .crash
        | b0 :: rest => .ok ((b0.dropWhile isJsWs ++ rest.flatten : Str))
      else .ok stf.buf.flatten

/-- `format (node, indent, opts)`: a `UXMLDocument` input first checks the
option conflict and throws RangeError, then renders from its root with the
PI lines (each followed by `eol`) already in `buf`; a plain node renders
directly with no conflict check at all. -/
def format (h : Heap) (inp : FInput) (indent : Nat) (opts : FmtOpts)
    (esc : Nat → Bool) (fuel : Nat) : Except FFail Str :=
  match inp with
  | .fdoc pis root =>
      if opts.omitSelf || opts.noIndentFirst then .error .rangeErr
      else formatRun h root (pis.map (fun s => s ++ eolOf indent)) indent opts esc fuel
  | .fnode i => formatRun h i [] indent opts esc fuel

/-! ### C9: which option conflicts are actually checked -/

/-- A factory assignment for the formatter examples: node 1 is a tag named
`r`, everything else a tag named `b`. -/
def ty9 : ID → NodeRec := fun i => if i = 1 then tagRec (str "r") else tagRec (str "b")

/-- Tag 1 with the single child tag 2. -/
def c9state : Heap :=
  match appendN (initHeap ty9) 1 2 with
  | .ok s => s
  | .error _ => initHeap ty9

/-! ### C7: the indentation heuristic and its side effect -/

/-- The boolean a `canIndent` run produced. -/
def ciBool : Except FFail (Bool × Heap) → Option Bool
  | .ok (b, _) => some b
  | _ => none

/-- A node's parent link in the heap a `canIndent` run left behind. -/
def ciSup (r : Except FFail (Bool × Heap)) (j : ID) : Option (Option ID) :=
  match r with
  | .ok (_, h) => some ((h j).sup)
  | _ => none

/-- A node's child count in the heap a `canIndent` run left behind. -/
def ciSize (r : Except FFail (Bool × Heap)) (j : ID) : Option Int :=
  match r with
  | .ok (_, h) => some ((h j).size)
  | _ => none

/-- Tag 1 with two Text children: node 2 holds the whitespace-only `" "`,
node 3 holds `"x"`. -/
def ty7c : ID → NodeRec :=
  fun i => if i = 1 then tagRec (str "r")
    else if i = 2 then textRec (str " ") else textRec (str "x")

/-- The heap after `append (1, 2); append (1, 3)`. -/
def c7state : Heap :=
  match run (initHeap ty7c) [Op.append 1 2, Op.append 1 3] with
  | .ok s => s
  | .error _ => initHeap ty7c

/-- Node 1 a tag, node 2 the whitespace-only Text `" "`, everything else
a tag named `b`. -/
def ty7w : ID → NodeRec :=
  fun i => if i = 1 then tagRec (str "r")
    else if i = 2 then textRec (str " ") else tagRec (str "b")

/-- Tag 1 with children: Text 2 (`" "`) and tag 3. -/
def c7wstate : Heap := appendCore (appendCore (initHeap ty7w) 1 2) 1 3

/-- The child map of `c7wstate`. -/
def cl7w : ID → List ID := Function.update (fun _ => []) 1 [2, 3]

/-- `decl`, `root`, `doc` are untouched by a helper that only repositions
the cursor. -/
def DRD (a b : PSt) : Prop := b.decl = a.decl ∧ b.root = a.root ∧ b.doc = a.doc

section SetterLemmas

variable (s : Heap) (i j : ID)

@[simp] lemma sPrev_prev (v : Option ID) :
    ((sPrev s i v) j).prev = if j = i then v else (s j).prev := by
  by_cases h : j = i <;> simp [sPrev, h]

@[simp] lemma sPrev_next (v : Option ID) : ((sPrev s i v) j).next = (s j).next := by
  by_cases h : j = i <;> simp [sPrev, h]

@[simp] lemma sPrev_sup (v : Option ID) : ((sPrev s i v) j).sup = (s j).sup := by
  by_cases h : j = i <;> simp [sPrev, h]

@[simp] lemma sPrev_first (v : Option ID) : ((sPrev s i v) j).first = (s j).first := by
  by_cases h : j = i <;> simp [sPrev, h]

@[simp] lemma sPrev_last (v : Option ID) : ((sPrev s i v) j).last = (s j).last := by
  by_cases h : j = i <;> simp [sPrev, h]

@[simp] lemma sPrev_size (v : Option ID) : ((sPrev s i v) j).size = (s j).size := by
  by_cases h : j = i <;> simp [sPrev, h]

@[simp] lemma sPrev_type (v : Option ID) : ((sPrev s i v) j).type = (s j).type := by
  by_cases h : j = i <;> simp [sPrev, h]

@[simp] lemma sNext_next (v : Option ID) :
    ((sNext s i v) j).next = if j = i then v else (s j).next := by
  by_cases h : j = i <;> simp [sNext, h]

@[simp] lemma sNext_prev (v : Option ID) : ((sNext s i v) j).prev = (s j).prev := by
  by_cases h : j = i <;> simp [sNext, h]

@[simp] lemma sNext_sup (v : Option ID) : ((sNext s i v) j).sup = (s j).sup := by
  by_cases h : j = i <;> simp [sNext, h]

@[simp] lemma sNext_first (v : Option ID) : ((sNext s i v) j).first = (s j).first := by
  by_cases h : j = i <;> simp [sNext, h]

@[simp] lemma sNext_last (v : Option ID) : ((sNext s i v) j).last = (s j).last := by
  by_cases h : j = i <;> simp [sNext, h]

@[simp] lemma sNext_size (v : Option ID) : ((sNext s i v) j).size = (s j).size := by
  by_cases h : j = i <;> simp [sNext, h]

@[simp] lemma sNext_type (v : Option ID) : ((sNext s i v) j).type = (s j).type := by
  by_cases h : j = i <;> simp [sNext, h]

@[simp] lemma sSup_sup (v : Option ID) :
    ((sSup s i v) j).sup = if j = i then v else (s j).sup := by
  by_cases h : j = i <;> simp [sSup, h]

@[simp] lemma sSup_prev (v : Option ID) : ((sSup s i v) j).prev = (s j).prev := by
  by_cases h : j = i <;> simp [sSup, h]

@[simp] lemma sSup_next (v : Option ID) : ((sSup s i v) j).next = (s j).next := by
  by_cases h : j = i <;> simp [sSup, h]

@[simp] lemma sSup_first (v : Option ID) : ((sSup s i v) j).first = (s j).first := by
  by_cases h : j = i <;> simp [sSup, h]

@[simp] lemma sSup_last (v : Option ID) : ((sSup s i v) j).last = (s j).last := by
  by_cases h : j = i <;> simp [sSup, h]

@[simp] lemma sSup_size (v : Option ID) : ((sSup s i v) j).size = (s j).size := by
  by_cases h : j = i <;> simp [sSup, h]

@[simp] lemma sSup_type (v : Option ID) : ((sSup s i v) j).type = (s j).type := by
  by_cases h : j = i <;> simp [sSup, h]

@[simp] lemma sFirst_first (v : Option ID) :
    ((sFirst s i v) j).first = if j = i then v else (s j).first := by
  by_cases h : j = i <;> simp [sFirst, h]

@[simp] lemma sFirst_prev (v : Option ID) : ((sFirst s i v) j).prev = (s j).prev := by
  by_cases h : j = i <;> simp [sFirst, h]

@[simp] lemma sFirst_next (v : Option ID) : ((sFirst s i v) j).next = (s j).next := by
  by_cases h : j = i <;> simp [sFirst, h]

@[simp] lemma sFirst_sup (v : Option ID) : ((sFirst s i v) j).sup = (s j).sup := by
  by_cases h : j = i <;> simp [sFirst, h]

@[simp] lemma sFirst_last (v : Option ID) : ((sFirst s i v) j).last = (s j).last := by
  by_cases h : j = i <;> simp [sFirst, h]

@[simp] lemma sFirst_size (v : Option ID) : ((sFirst s i v) j).size = (s j).size := by
  by_cases h : j = i <;> simp [sFirst, h]

@[simp] lemma sFirst_type (v : Option ID) : ((sFirst s i v) j).type = (s j).type := by
  by_cases h : j = i <;> simp [sFirst, h]

@[simp] lemma sLast_last (v : Option ID) :
    ((sLast s i v) j).last = if j = i then v else (s j).last := by
  by_cases h : j = i <;> simp [sLast, h]

@[simp] lemma sLast_prev (v : Option ID) : ((sLast s i v) j).prev = (s j).prev := by
  by_cases h : j = i <;> simp [sLast, h]

@[simp] lemma sLast_next (v : Option ID) : ((sLast s i v) j).next = (s j).next := by
  by_cases h : j = i <;> simp [sLast, h]

@[simp] lemma sLast_sup (v : Option ID) : ((sLast s i v) j).sup = (s j).sup := by
  by_cases h : j = i <;> simp [sLast, h]

@[simp] lemma sLast_first (v : Option ID) : ((sLast s i v) j).first = (s j).first := by
  by_cases h : j = i <;> simp [sLast, h]

@[simp] lemma sLast_size (v : Option ID) : ((sLast s i v) j).size = (s j).size := by
  by_cases h : j = i <;> simp [sLast, h]

@[simp] lemma sLast_type (v : Option ID) : ((sLast s i v) j).type = (s j).type := by
  by_cases h : j = i <;> simp [sLast, h]

@[simp] lemma sSize_size (v : Int) :
    ((sSize s i v) j).size = if j = i then v else (s j).size := by
  by_cases h : j = i <;> simp [sSize, h]

@[simp] lemma sSize_prev (v : Int) : ((sSize s i v) j).prev = (s j).prev := by
  by_cases h : j = i <;> simp [sSize, h]

@[simp] lemma sSize_next (v : Int) : ((sSize s i v) j).next = (s j).next := by
  by_cases h : j = i <;> simp [sSize, h]

@[simp] lemma sSize_sup (v : Int) : ((sSize s i v) j).sup = (s j).sup := by
  by_cases h : j = i <;> simp [sSize, h]

@[simp] lemma sSize_first (v : Int) : ((sSize s i v) j).first = (s j).first := by
  by_cases h : j = i <;> simp [sSize, h]

@[simp] lemma sSize_last (v : Int) : ((sSize s i v) j).last = (s j).last := by
  by_cases h : j = i <;> simp [sSize, h]

@[simp] lemma sSize_type (v : Int) : ((sSize s i v) j).type = (s j).type := by
  by_cases h : j = i <;> simp [sSize, h]

end SetterLemmas

lemma WF.mem_unique {s : Heap} {cl : ID → List ID} (h : WF s cl) {c p q : ID}
    (hp : c ∈ cl p) (hq : c ∈ cl q) : p = q := by
  have h1 := (h.mem c p).mpr hp
  have h2 := (h.mem c q).mpr hq
  rw [h1] at h2
  exact Option.some_injective _ h2

lemma WF.not_mem_of_sup_none {s : Heap} {cl : ID → List ID} (h : WF s cl) {c p : ID}
    (hn : (s c).sup = none) : c ∉ cl p := by
  intro hc
  have := (h.mem c p).mpr hc
  rw [hn] at this
  exact Option.noConfusion this

/-! ### Small list helpers -/
lemma head?_append_left {α : Type} {l1 l2 : List α} (h : l1 ≠ []) :
    (l1 ++ l2).head? = l1.head? := by
  cases l1 with
  | nil => exact absurd rfl h
  | cons a t => rfl

lemma getLast?_append_right {α : Type} {l1 l2 : List α} (h : l2 ≠ []) :
    (l1 ++ l2).getLast? = l2.getLast? :=
  List.getLast?_append_of_ne_nil l1 h

/-- Transfer a forward chain to a heap that agrees on `next` everywhere but
possibly the last element (which the chain never dereferences). -/
lemma chain_next_agree {s s2 : Heap} : ∀ {l : List ID},
    (∀ x ∈ l.dropLast, (s2 x).next = (s x).next) →
    l.Chain' (fun a b => (s a).next = some b) →
    l.Chain' (fun a b => (s2 a).next = some b) := by
  intro l
  induction l with
  | nil => intro _ _; simp
  | cons a t ih =>
      intro hag hc
      cases t with
      | nil => simp
      | cons b u =>
          rw [List.chain'_cons] at hc ⊢
          refine ⟨?_, ih ?_ hc.2⟩
          · rw [hag a (by simp [List.dropLast])]
            exact hc.1
          · intro x hx
            exact hag x (by simp [List.dropLast]; right; exact hx)

/-- Transfer a backward chain to a heap that agrees on `prev` everywhere but
possibly the head element. -/
lemma chain_prev_agree {s s2 : Heap} : ∀ {l : List ID},
    (∀ x ∈ l.tail, (s2 x).prev = (s x).prev) →
    l.Chain' (fun a b => (s b).prev = some a) →
    l.Chain' (fun a b => (s2 b).prev = some a) := by
  intro l
  induction l with
  | nil => intro _ _; simp
  | cons a t ih =>
      intro hag hc
      cases t with
      | nil => simp
      | cons b u =>
          rw [List.chain'_cons] at hc ⊢
          refine ⟨?_, ih ?_ hc.2⟩
          · rw [hag b (by simp)]
            exact hc.1
          · intro x hx
            apply hag
            simp only [List.tail_cons] at hx ⊢
            exact List.mem_cons_of_mem _ hx

/-- In a well-formed heap the `next` pointer of a list member is the head of
what follows it. -/
lemma WF.next_of_split {s : Heap} {cl : ID → List ID} (h : WF s cl) {p c : ID}
    {l1 l2 : List ID} (hsplit : cl p = l1 ++ c :: l2) :
    (s c).next = l2.head? := by
  cases l2 with
  | nil =>
      apply h.last_nxt p
      rw [hsplit]
      have : l1 ++ [c] = l1 ++ c :: ([] : List ID) := rfl
      rw [← this, List.getLast?_concat]
  | cons x u =>
      have hch := h.nxt p
      rw [hsplit] at hch
      have : l1 ++ c :: x :: u = (l1 ++ [c]) ++ x :: u := by simp
      rw [this, List.chain'_append] at hch
      have := hch.2.2 c (by rw [List.getLast?_concat]; rfl) x rfl
      simpa using this

/-- In a well-formed heap the `prev` pointer of a list member is the last of
what precedes it. -/
lemma WF.prev_of_split {s : Heap} {cl : ID → List ID} (h : WF s cl) {p c : ID}
    {l1 l2 : List ID} (hsplit : cl p = l1 ++ c :: l2) :
    (s c).prev = l1.getLast? := by
  cases l1 with
  | nil =>
      apply h.head_prv p
      rw [hsplit]
      rfl
  | cons x u =>
      have hch := h.prv p
      rw [hsplit, List.chain'_append] at hch
      have := hch.2.2 ((x :: u).getLast (by simp))
        (by rw [List.getLast?_eq_getLast _ (by simp)]; rfl) c rfl
      rw [this, List.getLast?_eq_getLast _ (by simp)]

/-- Fuel at least the list length makes the forward traversal from the head
of a well-formed sibling list reproduce the list. -/
lemma chainF_of_chain {s : Heap} : ∀ (l : List ID) (fuel : Nat),
    l.Chain' (fun a b => (s a).next = some b) →
    (∀ a, l.getLast? = some a → (s a).next = none) →
    l.length ≤ fuel →
    chainF s fuel l.head? = l := by
  intro l
  induction l with
  | nil => intro fuel _ _ _; cases fuel <;> rfl
  | cons a t ih =>
      intro fuel hc hl hlen
      cases fuel with
      | zero => simp at hlen
      | succ f =>
          show a :: chainF s f (s a).next = a :: t
          congr 1
          have hnext : (s a).next = t.head? := by
            cases t with
            | nil => exact hl a rfl
            | cons b u => exact (List.chain'_cons.mp hc).1
          rw [hnext]
          apply ih f
          · cases t with
            | nil => simp
            | cons b u => exact (List.chain'_cons.mp hc).2
          · intro x hx
            apply hl
            cases t with
            | nil => simp at hx
            | cons b u => rw [List.getLast?_cons_cons]; exact hx
          · exact le_trans (by simp) (Nat.succ_le_succ_iff.mp hlen)

/-- Fuel at least the list length makes the backward traversal from the
last element of a well-formed sibling list reproduce the reversed list. -/
lemma chainB_of_chain {s : Heap} : ∀ (l : List ID) (fuel : Nat),
    l.Chain' (fun a b => (s b).prev = some a) →
    (∀ a, l.head? = some a → (s a).prev = none) →
    l.length ≤ fuel →
    chainB s fuel l.getLast? = l.reverse := by
  intro l fuel hc hh hlen
  -- working on the reversed list turns the backward walk into a forward one
  have hc2 : l.reverse.Chain' (fun a b => (s a).prev = some b) :=
    List.chain'_reverse.mpr hc
  have hl2 : ∀ a, l.reverse.getLast? = some a → (s a).prev = none := by
    intro a ha
    apply hh
    rwa [List.getLast?_reverse] at ha
  have hlen2 : l.reverse.length ≤ fuel := by simpa using hlen
  have hhead : l.getLast? = l.reverse.head? := by
    rw [List.head?_reverse]
  rw [hhead]
  -- the backward walk is the forward walk along `prev`
  have : ∀ (m : List ID) (f : Nat),
      m.Chain' (fun a b => (s a).prev = some b) →
      (∀ a, m.getLast? = some a → (s a).prev = none) →
      m.length ≤ f → chainB s f m.head? = m := by
    intro m
    induction m with
    | nil => intro f _ _ _; cases f <;> rfl
    | cons a t ih =>
        intro f hc3 hl3 hlen3
        cases f with
        | zero => simp at hlen3
        | succ g =>
            show a :: chainB s g (s a).prev = a :: t
            congr 1
            have hprev : (s a).prev = t.head? := by
              cases t with
              | nil => exact hl3 a rfl
              | cons b u => exact (List.chain'_cons.mp hc3).1
            rw [hprev]
            apply ih g
            · cases t with
              | nil => simp
              | cons b u => exact (List.chain'_cons.mp hc3).2
            · intro x hx
              apply hl3
              cases t with
              | nil => simp at hx
              | cons b u => rw [List.getLast?_cons_cons]; exact hx
            · exact le_trans (by simp) (Nat.succ_le_succ_iff.mp hlen3)
  exact this l.reverse fuel hc2 hl2 hlen2

lemma mem_of_getLast? {α : Type} {l : List α} {a : α} (h : l.getLast? = some a) :
    a ∈ l := by
  have h2 := List.dropLast_append_getLast? a (show a ∈ l.getLast? by rw [h]; rfl)
  rw [← h2]
  exact List.mem_append_right _ (by simp)

lemma mem_of_head? {α : Type} {l : List α} {a : α} (h : l.head? = some a) :
    a ∈ l := by
  cases l with
  | nil => exact Option.noConfusion h
  | cons b t =>
      rw [List.head?_cons, Option.some_inj] at h
      exact h ▸ List.mem_cons_self b t

lemma getLast?_not_mem_dropLast {α : Type} {l : List α} (hnd : l.Nodup) {a : α}
    (h : l.getLast? = some a) : a ∉ l.dropLast := by
  have h2 := List.dropLast_append_getLast? a (show a ∈ l.getLast? by rw [h]; rfl)
  rw [← h2, List.nodup_append] at hnd
  intro hmem
  exact hnd.2.2 hmem (by simp)

lemma head?_not_mem_tail {α : Type} {l : List α} (hnd : l.Nodup) {a : α}
    (h : l.head? = some a) : a ∉ l.tail := by
  cases l with
  | nil => exact Option.noConfusion h
  | cons b t =>
      rw [List.head?_cons, Option.some_inj] at h
      rw [List.nodup_cons] at hnd
      simpa [h] using hnd.1

/-! ### Read summaries of the link surgeries

Each lemma states, for every node and field, what one relinking routine
leaves in the heap, with the later writes of the routine taking precedence;
they hold for arbitrary heaps, aliased arguments included. -/
lemma detachAttached_sup (s : Heap) (c p j : ID) :
    ((detachAttached s c p) j).sup = if j = c then none else (s j).sup := by
  rcases hp : (s c).prev with _ | pr <;> rcases hn : (s c).next with _ | nx <;>
    by_cases hj : j = c <;> simp [detachAttached, hp, hn, hj]

lemma detachAttached_prev (s : Heap) (c p j : ID) :
    ((detachAttached s c p) j).prev =
      if j = c then none
      else if (s c).next = some j then (s c).prev else (s j).prev := by
  rcases hp : (s c).prev with _ | pr <;> rcases hn : (s c).next with _ | nx <;>
    by_cases hj : j = c <;> simp [detachAttached, hp, hn, hj] <;>
    by_cases hx : j = nx <;> simp [hx] <;> rw [if_neg fun h2 => hx h2.symm]

lemma detachAttached_next (s : Heap) (c p j : ID) :
    ((detachAttached s c p) j).next =
      if j = c then none
      else if (s c).prev = some j then (s c).next else (s j).next := by
  rcases hp : (s c).prev with _ | pr <;> rcases hn : (s c).next with _ | nx <;>
    by_cases hj : j = c <;> simp [detachAttached, hp, hn, hj] <;>
    by_cases hx : j = pr <;> simp [hx] <;> rw [if_neg fun h2 => hx h2.symm]

lemma detachAttached_first (s : Heap) (c p j : ID) :
    ((detachAttached s c p) j).first =
      if (s c).prev = none ∧ j = p then (s c).next else (s j).first := by
  rcases hp : (s c).prev with _ | pr <;> rcases hn : (s c).next with _ | nx <;>
    by_cases hj : j = p <;> simp [detachAttached, hp, hn, hj]

lemma detachAttached_last (s : Heap) (c p j : ID) :
    ((detachAttached s c p) j).last =
      if (s c).next = none ∧ j = p then (s c).prev else (s j).last := by
  rcases hp : (s c).prev with _ | pr <;> rcases hn : (s c).next with _ | nx <;>
    by_cases hj : j = p <;> simp [detachAttached, hp, hn, hj]

lemma detachAttached_size (s : Heap) (c p j : ID) :
    ((detachAttached s c p) j).size =
      if j = p then (s j).size - 1 else (s j).size := by
  rcases hp : (s c).prev with _ | pr <;> rcases hn : (s c).next with _ | nx <;>
    by_cases hj : j = p <;> simp [detachAttached, hp, hn, hj]

lemma detachAttached_type (s : Heap) (c p j : ID) :
    ((detachAttached s c p) j).type = (s j).type := by
  rcases hp : (s c).prev with _ | pr <;> rcases hn : (s c).next with _ | nx <;>
    simp [detachAttached, hp, hn]

lemma appendCore_sup (s : Heap) (t c j : ID) :
    ((appendCore s t c) j).sup = if j = c then some t else (s j).sup := by
  rcases hl : (s t).last with _ | lt <;> by_cases hj : j = c <;>
    simp [appendCore, hl, hj]

lemma appendCore_prev (s : Heap) (t c j : ID) :
    ((appendCore s t c) j).prev = if j = c then (s t).last else (s j).prev := by
  rcases hl : (s t).last with _ | lt <;> by_cases hj : j = c <;>
    simp [appendCore, hl, hj]

lemma appendCore_next (s : Heap) (t c j : ID) :
    ((appendCore s t c) j).next =
      if j = c then none
      else if (s t).last = some j then some c else (s j).next := by
  rcases hl : (s t).last with _ | lt <;> by_cases hj : j = c <;>
    simp [appendCore, hl, hj] <;> by_cases hx : j = lt <;> simp [hx] <;> rw [if_neg fun h2 => hx h2.symm]

lemma appendCore_first (s : Heap) (t c j : ID) :
    ((appendCore s t c) j).first =
      if (s t).last = none ∧ j = t then some c else (s j).first := by
  rcases hl : (s t).last with _ | lt <;> by_cases hj : j = t <;>
    simp [appendCore, hl, hj]

lemma appendCore_last (s : Heap) (t c j : ID) :
    ((appendCore s t c) j).last = if j = t then some c else (s j).last := by
  rcases hl : (s t).last with _ | lt <;> by_cases hj : j = t <;>
    simp [appendCore, hl, hj]

lemma appendCore_size (s : Heap) (t c j : ID) :
    ((appendCore s t c) j).size =
      if j = t then (s j).size + 1 else (s j).size := by
  rcases hl : (s t).last with _ | lt <;> by_cases hj : j = t <;>
    simp [appendCore, hl, hj]

lemma appendCore_type (s : Heap) (t c j : ID) :
    ((appendCore s t c) j).type = (s j).type := by
  rcases hl : (s t).last with _ | lt <;> simp [appendCore, hl]

lemma insertRelink_sup (s : Heap) (t c r j : ID) :
    ((insertRelink s t c r) j).sup = if j = c then some t else (s j).sup := by
  rcases hp : (s r).prev with _ | pv <;> by_cases hj : j = c <;>
    simp [insertRelink, hp, hj]

lemma insertRelink_prev (s : Heap) (t c r j : ID) :
    ((insertRelink s t c r) j).prev =
      if j = r then some c
      else if j = c then (s r).prev else (s j).prev := by
  rcases hp : (s r).prev with _ | pv <;> by_cases hj : j = r <;>
    by_cases hj2 : j = c <;> simp [insertRelink, hp, hj, hj2]

lemma insertRelink_next (s : Heap) (t c r j : ID) :
    ((insertRelink s t c r) j).next =
      if j = c then some r
      else if (s r).prev = some j then some c else (s j).next := by
  rcases hp : (s r).prev with _ | pv <;> by_cases hj : j = c <;>
    simp [insertRelink, hp, hj] <;> by_cases hx : j = pv <;> simp [hx] <;> rw [if_neg fun h2 => hx h2.symm]

lemma insertRelink_first (s : Heap) (t c r j : ID) :
    ((insertRelink s t c r) j).first =
      if (s r).prev = none ∧ j = t then some c else (s j).first := by
  rcases hp : (s r).prev with _ | pv <;> by_cases hj : j = t <;>
    simp [insertRelink, hp, hj]

lemma insertRelink_last (s : Heap) (t c r j : ID) :
    ((insertRelink s t c r) j).last = (s j).last := by
  rcases hp : (s r).prev with _ | pv <;> simp [insertRelink, hp]

lemma insertRelink_size (s : Heap) (t c r j : ID) :
    ((insertRelink s t c r) j).size =
      if j = t then (s j).size + 1 else (s j).size := by
  rcases hp : (s r).prev with _ | pv <;> by_cases hj : j = t <;>
    simp [insertRelink, hp, hj]

lemma insertRelink_type (s : Heap) (t c r j : ID) :
    ((insertRelink s t c r) j).type = (s j).type := by
  rcases hp : (s r).prev with _ | pv <;> simp [insertRelink, hp]

/-- `detach()` on an attached node preserves well-formedness: the detached
node simply disappears from its parent's child list. -/
lemma detachAttached_wf {s : Heap} {cl : ID → List ID} (h : WF s cl) {c p : ID}
    (hsup : (s c).sup = some p) :
    WF (detachAttached s c p)
      (fun q => (cl q).filter (fun x => decide (x ≠ c))) := by
  have hmemc : c ∈ cl p := (h.mem c p).mp hsup
  obtain ⟨l1, l2, hsplit⟩ := List.append_of_mem hmemc
  have hndp := h.nodup p
  rw [hsplit] at hndp
  have hmid := List.nodup_append.mp hndp
  have hnd1 : l1.Nodup := hmid.1
  have hc1 : c ∉ l1 := fun hc => hmid.2.2 hc (List.mem_cons_self c l2)
  have hnd2 : l2.Nodup := (List.nodup_cons.mp hmid.2.1).2
  have hc2 : c ∉ l2 := (List.nodup_cons.mp hmid.2.1).1
  have hdisj12 : ∀ x ∈ l1, x ∉ l2 := fun x hx hx2 =>
    hmid.2.2 hx (List.mem_cons_of_mem c hx2)
  have hprevc : (s c).prev = l1.getLast? := h.prev_of_split hsplit
  have hnextc : (s c).next = l2.head? := h.next_of_split hsplit
  have hl1sub : ∀ x ∈ l1, x ∈ cl p := fun x hx => by
    rw [hsplit]; exact List.mem_append_left _ hx
  have hl2sub : ∀ x ∈ l2, x ∈ cl p := fun x hx => by
    rw [hsplit]; exact List.mem_append_right _ (List.mem_cons_of_mem c hx)
  have hqne : ∀ q, q ≠ p → c ∉ cl q := fun q hq hcq =>
    hq (h.mem_unique hcq hmemc)
  have hfq : ∀ q, c ∉ cl q → (cl q).filter (fun x => decide (x ≠ c)) = cl q := by
    intro q hcq
    apply List.filter_eq_self.mpr
    intro a ha
    simp only [decide_eq_true_eq]
    exact fun he => hcq (he ▸ ha)
  have hfl1 : l1.filter (fun x => decide (x ≠ c)) = l1 := by
    apply List.filter_eq_self.mpr
    intro a ha
    simp only [decide_eq_true_eq]
    exact fun he => hc1 (he ▸ ha)
  have hfl2 : l2.filter (fun x => decide (x ≠ c)) = l2 := by
    apply List.filter_eq_self.mpr
    intro a ha
    simp only [decide_eq_true_eq]
    exact fun he => hc2 (he ▸ ha)
  have hclp : (cl p).filter (fun x => decide (x ≠ c)) = l1 ++ l2 := by
    rw [hsplit, List.filter_append, hfl1, List.filter_cons]
    simp only [decide_eq_true_eq]
    rw [if_neg (by simp), hfl2]
  have hunext : ∀ x, x ≠ c → ((s c).prev = some x → False) →
      ((detachAttached s c p) x).next = (s x).next := by
    intro x hxc hxp
    rw [detachAttached_next, if_neg hxc, if_neg hxp]
  have huprev : ∀ x, x ≠ c → ((s c).next = some x → False) →
      ((detachAttached s c p) x).prev = (s x).prev := by
    intro x hxc hxn
    rw [detachAttached_prev, if_neg hxc, if_neg hxn]
  have hxq_ne : ∀ q, q ≠ p → ∀ x ∈ cl q, x ≠ c := by
    intro q hq x hx he
    exact hqne q hq (he ▸ hx)
  have hxq_npr : ∀ q, q ≠ p → ∀ x ∈ cl q, (s c).prev = some x → False := by
    intro q hq x hx heq
    rw [hprevc] at heq
    exact hq (h.mem_unique hx (hl1sub _ (mem_of_getLast? heq)))
  have hxq_nnx : ∀ q, q ≠ p → ∀ x ∈ cl q, (s c).next = some x → False := by
    intro q hq x hx heq
    rw [hnextc] at heq
    exact hq (h.mem_unique hx (hl2sub _ (mem_of_head? heq)))
  refine ⟨?_, ?_, ?_, ?_, ?_, ?_, ?_, ?_, ?_⟩
  · -- mem
    intro x q
    rw [detachAttached_sup]
    by_cases hx : x = c
    · subst hx
      simp [List.mem_filter]
    · rw [if_neg hx, h.mem x q]
      simp [List.mem_filter, hx]
  · -- nodup
    intro q
    exact (h.nodup q).filter _
  · -- first_eq
    intro q
    rw [detachAttached_first]
    by_cases hq : q = p
    · subst hq
      cases he1 : l1 with
      | nil =>
          rw [if_pos ⟨by rw [hprevc, he1]; rfl, rfl⟩, hnextc, hclp, he1]
          rfl
      | cons a l1t =>
          rw [if_neg (by rw [hprevc, he1]; simp), h.first_eq q, hclp, hsplit, he1]
          rw [head?_append_left (by simp), head?_append_left (by simp)]
    · rw [if_neg (fun hh => hq hh.2), h.first_eq q, hfq q (hqne q hq)]
  · -- last_eq
    intro q
    rw [detachAttached_last]
    by_cases hq : q = p
    · subst hq
      cases he2 : l2 with
      | nil =>
          rw [if_pos ⟨by rw [hnextc, he2]; rfl, rfl⟩, hprevc, hclp, he2]
          simp
      | cons b l2t =>
          rw [if_neg (by rw [hnextc, he2]; simp), h.last_eq q, hclp, hsplit, he2]
          rw [@getLast?_append_right _ _ (c :: b :: l2t) (by simp),
            @getLast?_append_right _ _ (b :: l2t) (by simp),
            List.getLast?_cons_cons]
    · rw [if_neg (fun hh => hq hh.2), h.last_eq q, hfq q (hqne q hq)]
  · -- nxt chains
    intro q
    by_cases hq : q = p
    · subst hq
      have hnxt := h.nxt q
      rw [hsplit, List.chain'_append] at hnxt
      rw [hclp, List.chain'_append]
      refine ⟨?_, ?_, ?_⟩
      · apply chain_next_agree ?_ hnxt.1
        intro x hx
        have hxl1 : x ∈ l1 := (List.dropLast_sublist l1).subset hx
        have hxc : x ≠ c := fun he => hc1 (he ▸ hxl1)
        refine hunext x hxc ?_
        intro heq
        rw [hprevc] at heq
        exact getLast?_not_mem_dropLast hnd1 heq hx
      · apply chain_next_agree ?_ hnxt.2.1.tail
        intro x hx
        have hxl2 : x ∈ l2 := (List.dropLast_sublist l2).subset hx
        have hxc : x ≠ c := fun he => hc2 (he ▸ hxl2)
        refine hunext x hxc ?_
        intro heq
        rw [hprevc] at heq
        exact hdisj12 _ (mem_of_getLast? heq) hxl2
      · intro x hx y hy
        have hx2 : l1.getLast? = some x := hx
        have hy2 : l2.head? = some y := hy
        have hxc : ¬x = c := fun he => hc1 (he ▸ mem_of_getLast? hx2)
        rw [detachAttached_next, if_neg hxc,
          if_pos (by rw [hprevc]; exact hx2), hnextc]
        exact hy2
    · have hbase : ((cl q).filter (fun x => decide (x ≠ c))).Chain'
          (fun a b => (s a).next = some b) := by
        rw [hfq q (hqne q hq)]
        exact h.nxt q
      apply chain_next_agree ?_ hbase
      intro x hx
      have hxq : x ∈ cl q := (List.dropLast_sublist _).subset
        (by rwa [hfq q (hqne q hq)] at hx)
      exact hunext x (hxq_ne q hq x hxq) (hxq_npr q hq x hxq)
  · -- prv chains
    intro q
    by_cases hq : q = p
    · subst hq
      have hprv := h.prv q
      rw [hsplit, List.chain'_append] at hprv
      rw [hclp, List.chain'_append]
      refine ⟨?_, ?_, ?_⟩
      · apply chain_prev_agree ?_ hprv.1
        intro x hx
        have hxl1 : x ∈ l1 := List.mem_of_mem_tail hx
        have hxc : x ≠ c := fun he => hc1 (he ▸ hxl1)
        refine huprev x hxc ?_
        intro heq
        rw [hnextc] at heq
        exact hdisj12 _ hxl1 (mem_of_head? heq)
      · apply chain_prev_agree ?_ hprv.2.1.tail
        intro x hx
        have hxl2 : x ∈ l2 := List.mem_of_mem_tail hx
        have hxc : x ≠ c := fun he => hc2 (he ▸ hxl2)
        refine huprev x hxc ?_
        intro heq
        rw [hnextc] at heq
        exact head?_not_mem_tail hnd2 heq hx
      · intro x hx y hy
        have hx2 : l1.getLast? = some x := hx
        have hy2 : l2.head? = some y := hy
        have hyc : ¬y = c := fun he => hc2 (he ▸ mem_of_head? hy2)
        rw [detachAttached_prev, if_neg hyc,
          if_pos (by rw [hnextc]; exact hy2), hprevc]
        exact hx2
    · have hbase : ((cl q).filter (fun x => decide (x ≠ c))).Chain'
          (fun a b => (s b).prev = some a) := by
        rw [hfq q (hqne q hq)]
        exact h.prv q
      apply chain_prev_agree ?_ hbase
      intro x hx
      have hxq : x ∈ cl q := List.mem_of_mem_tail (by rwa [hfq q (hqne q hq)] at hx)
      exact huprev x (hxq_ne q hq x hxq) (hxq_nnx q hq x hxq)
  · -- last_nxt
    intro q a ha
    by_cases hq : q = p
    · subst hq
      rw [hclp] at ha
      cases he2 : l2 with
      | nil =>
          rw [he2, List.append_nil] at ha
          have hac : ¬a = c := fun he => hc1 (he ▸ mem_of_getLast? ha)
          rw [detachAttached_next, if_neg hac,
            if_pos (by rw [hprevc]; exact ha), hnextc, he2]
          rfl
      | cons b l2t =>
          rw [he2, getLast?_append_right (by simp)] at ha
          rw [← he2] at ha
          have hal2 : a ∈ l2 := mem_of_getLast? ha
          have hac : a ≠ c := fun he => hc2 (he ▸ hal2)
          have hanp : (s c).prev = some a → False := fun heq =>
            hdisj12 _ (mem_of_getLast? (hprevc ▸ heq)) hal2
          rw [hunext a hac hanp]
          apply h.last_nxt q
          rw [hsplit, List.getLast?_append_cons, he2, List.getLast?_cons_cons, ← he2]
          exact ha
    · rw [hfq q (hqne q hq)] at ha
      have haq : a ∈ cl q := mem_of_getLast? ha
      rw [hunext a (hxq_ne q hq a haq) (hxq_npr q hq a haq)]
      exact h.last_nxt q a ha
  · -- head_prv
    intro q a ha
    by_cases hq : q = p
    · subst hq
      rw [hclp] at ha
      cases he1 : l1 with
      | nil =>
          rw [he1, List.nil_append] at ha
          have hac : ¬a = c := fun he => hc2 (he ▸ mem_of_head? ha)
          rw [detachAttached_prev, if_neg hac,
            if_pos (by rw [hnextc]; exact ha), hprevc, he1]
          rfl
      | cons b l1t =>
          rw [he1, head?_append_left (by simp)] at ha
          rw [← he1] at ha
          have hal1 : a ∈ l1 := mem_of_head? ha
          have hac : a ≠ c := fun he => hc1 (he ▸ hal1)
          have hann : (s c).next = some a → False := fun heq =>
            hdisj12 _ hal1 (mem_of_head? (hnextc ▸ heq))
          rw [huprev a hac hann]
          apply h.head_prv q
          rw [hsplit, head?_append_left (by rw [he1]; simp)]
          exact ha
    · rw [hfq q (hqne q hq)] at ha
      have haq : a ∈ cl q := mem_of_head? ha
      rw [huprev a (hxq_ne q hq a haq) (hxq_nnx q hq a haq)]
      exact h.head_prv q a ha
  · -- size_eq
    intro q
    rw [detachAttached_size]
    by_cases hq : q = p
    · subst hq
      rw [if_pos rfl, h.size_eq q, hclp, hsplit]
      simp only [List.length_append, List.length_cons]
      push_cast
      ring
    · rw [if_neg hq, h.size_eq q, hfq q (hqne q hq)]

/-- The relinking part of `append` on a detached node preserves
well-formedness: the node becomes the new last child of the target. -/
lemma appendCore_wf {s : Heap} {cl : ID → List ID} (h : WF s cl) {t c : ID}
    (hsup : (s c).sup = none) :
    WF (appendCore s t c) (Function.update cl t (cl t ++ [c])) := by
  have hcnot : ∀ q, c ∉ cl q := fun q => h.not_mem_of_sup_none hsup
  have hlastt : (s t).last = (cl t).getLast? := h.last_eq t
  have hunext : ∀ x, x ≠ c → ((s t).last = some x → False) →
      ((appendCore s t c) x).next = (s x).next := by
    intro x hxc hxl
    rw [appendCore_next, if_neg hxc, if_neg hxl]
  have huprev : ∀ x, x ≠ c → ((appendCore s t c) x).prev = (s x).prev := by
    intro x hxc
    rw [appendCore_prev, if_neg hxc]
  have hmemt : ∀ x, (s t).last = some x → x ∈ cl t := by
    intro x hxl
    rw [hlastt] at hxl
    exact mem_of_getLast? hxl
  refine ⟨?_, ?_, ?_, ?_, ?_, ?_, ?_, ?_, ?_⟩
  · -- mem
    intro x q
    rw [appendCore_sup]
    by_cases hx : x = c
    · rw [if_pos hx, hx]
      constructor
      · intro hh
        obtain rfl : q = t := by injection hh with hh2; exact hh2.symm
        rw [Function.update_same]
        exact List.mem_append_right _ (by simp)
      · intro hh
        by_cases hq : q = t
        · rw [hq]
        · rw [Function.update_noteq hq] at hh
          exact absurd hh (hcnot q)
    · rw [if_neg hx, h.mem x q]
      by_cases hq : q = t
      · rw [hq, Function.update_same]
        simp [hx]
      · rw [Function.update_noteq hq]
  · -- nodup
    intro q
    by_cases hq : q = t
    · rw [hq, Function.update_same, List.nodup_append]
      exact ⟨h.nodup t, List.nodup_singleton c,
        fun x hx hx2 => hcnot t ((by simpa using hx2 : x = c) ▸ hx)⟩
    · rw [Function.update_noteq hq]
      exact h.nodup q
  · -- first_eq
    intro q
    rw [appendCore_first]
    by_cases hq : q = t
    · rw [hq, Function.update_same]
      rcases (cl t).eq_nil_or_concat with he | ⟨l0, b, he⟩
      · rw [if_pos ⟨by rw [hlastt, he]; rfl, rfl⟩, he]
        rfl
      · have hne : cl t ≠ [] := by rw [he]; simp
        have hcond : ¬((s t).last = none ∧ t = t) := by
          intro hh
          rw [hlastt, he, List.concat_eq_append, List.getLast?_concat] at hh
          exact Option.noConfusion hh.1
        rw [if_neg hcond, h.first_eq t, head?_append_left hne]
    · rw [if_neg (fun hh => hq hh.2), Function.update_noteq hq]
      exact h.first_eq q
  · -- last_eq
    intro q
    rw [appendCore_last]
    by_cases hq : q = t
    · rw [hq, if_pos rfl, Function.update_same, List.getLast?_concat]
    · rw [if_neg hq, Function.update_noteq hq]
      exact h.last_eq q
  · -- nxt
    intro q
    by_cases hq : q = t
    · rw [hq, Function.update_same, List.chain'_append]
      refine ⟨?_, by simp, ?_⟩
      · apply chain_next_agree ?_ (h.nxt t)
        intro x hx
        have hxm : x ∈ cl t := (List.dropLast_sublist _).subset hx
        refine hunext x (fun he => hcnot t (he ▸ hxm)) ?_
        intro heq
        rw [hlastt] at heq
        exact getLast?_not_mem_dropLast (h.nodup t) heq hx
      · intro x hx y hy
        have hy2 : c = y := by simpa using hy
        have hx2 : (cl t).getLast? = some x := hx
        have hxc : ¬x = c := fun he => hcnot t (he ▸ mem_of_getLast? hx2)
        rw [appendCore_next, if_neg hxc, if_pos (by rw [hlastt]; exact hx2), hy2]
    · rw [Function.update_noteq hq]
      apply chain_next_agree ?_ (h.nxt q)
      intro x hx
      have hxm : x ∈ cl q := (List.dropLast_sublist _).subset hx
      refine hunext x (fun he => hcnot q (he ▸ hxm)) ?_
      intro heq
      exact hq (h.mem_unique hxm (hmemt x heq))
  · -- prv
    intro q
    by_cases hq : q = t
    · rw [hq, Function.update_same, List.chain'_append]
      refine ⟨?_, by simp, ?_⟩
      · apply chain_prev_agree ?_ (h.prv t)
        intro x hx
        have hxm : x ∈ cl t := List.mem_of_mem_tail hx
        exact huprev x (fun he => hcnot t (he ▸ hxm))
      · intro x hx y hy
        have hy2 : c = y := by simpa using hy
        have hx2 : (cl t).getLast? = some x := hx
        rw [← hy2, appendCore_prev, if_pos rfl, hlastt]
        exact hx2
    · rw [Function.update_noteq hq]
      apply chain_prev_agree ?_ (h.prv q)
      intro x hx
      have hxm : x ∈ cl q := List.mem_of_mem_tail hx
      exact huprev x (fun he => hcnot q (he ▸ hxm))
  · -- last_nxt
    intro q a ha
    by_cases hq : q = t
    · rw [hq, Function.update_same, List.getLast?_concat] at ha
      have ha2 : a = c := by simpa using ha.symm
      rw [ha2, appendCore_next, if_pos rfl]
    · rw [Function.update_noteq hq] at ha
      have haq : a ∈ cl q := mem_of_getLast? ha
      rw [hunext a (fun he => hcnot q (he ▸ haq))
        (fun heq => hq (h.mem_unique haq (hmemt a heq)))]
      exact h.last_nxt q a ha
  · -- head_prv
    intro q a ha
    by_cases hq : q = t
    · rw [hq, Function.update_same] at ha
      rcases (cl t).eq_nil_or_concat with he | ⟨l0, b, he⟩
      · rw [he, List.nil_append] at ha
        have ha2 : a = c := by simpa using ha.symm
        rw [ha2, appendCore_prev, if_pos rfl, hlastt, he]
        rfl
      · rw [he, head?_append_left (by simp), ← he] at ha
        have haq : a ∈ cl t := mem_of_head? ha
        rw [huprev a (fun h2 => hcnot t (h2 ▸ haq))]
        exact h.head_prv t a ha
    · rw [Function.update_noteq hq] at ha
      have haq : a ∈ cl q := mem_of_head? ha
      rw [huprev a (fun h2 => hcnot q (h2 ▸ haq))]
      exact h.head_prv q a ha
  · -- size_eq
    intro q
    rw [appendCore_size]
    by_cases hq : q = t
    · rw [hq, if_pos rfl, h.size_eq t, Function.update_same]
      simp only [List.length_append, List.length_cons, List.length_nil]
      push_cast
      ring
    · rw [if_neg hq, Function.update_noteq hq]
      exact h.size_eq q

/-- The relinking part of `insert` on a detached node preserves
well-formedness: the node lands immediately before the reference child. -/
lemma insertRelink_wf {s : Heap} {cl : ID → List ID} (h : WF s cl) {t c r : ID}
    (hsup : (s c).sup = none) {m1 m2 : List ID} (hsplit : cl t = m1 ++ r :: m2) :
    WF (insertRelink s t c r) (Function.update cl t (m1 ++ c :: r :: m2)) := by
  have hcnot : ∀ q, c ∉ cl q := fun q => h.not_mem_of_sup_none hsup
  have hrt : r ∈ cl t := by
    rw [hsplit]
    exact List.mem_append_right _ (List.mem_cons_self r m2)
  have hcr : c ≠ r := fun he => hcnot t (he ▸ hrt)
  have hndt := h.nodup t
  rw [hsplit] at hndt
  have hmid := List.nodup_append.mp hndt
  have hnd1 : m1.Nodup := hmid.1
  have hndr2 : (r :: m2).Nodup := hmid.2.1
  have hrm2 : r ∉ m2 := (List.nodup_cons.mp hndr2).1
  have hnd2 : m2.Nodup := (List.nodup_cons.mp hndr2).2
  have hdisj12 : ∀ x ∈ m1, x ∉ r :: m2 := fun x hx hx2 => hmid.2.2 hx hx2
  have hrm1 : r ∉ m1 := fun hx => hdisj12 r hx (List.mem_cons_self r m2)
  have hcm1 : c ∉ m1 := fun hx => hcnot t (by rw [hsplit]; exact List.mem_append_left _ hx)
  have hcm2 : c ∉ m2 := fun hx => hcnot t
    (by rw [hsplit]; exact List.mem_append_right _ (List.mem_cons_of_mem r hx))
  have hP : (s r).prev = m1.getLast? := h.prev_of_split hsplit
  have hm1sub : ∀ x ∈ m1, x ∈ cl t := fun x hx => by
    rw [hsplit]; exact List.mem_append_left _ hx
  have hnxtt := h.nxt t
  rw [hsplit, List.chain'_append] at hnxtt
  have hprvt := h.prv t
  rw [hsplit, List.chain'_append] at hprvt
  have hunext : ∀ x, x ≠ c → ((s r).prev = some x → False) →
      ((insertRelink s t c r) x).next = (s x).next := by
    intro x hxc hxp
    rw [insertRelink_next, if_neg hxc, if_neg hxp]
  have huprev : ∀ x, x ≠ r → x ≠ c → ((insertRelink s t c r) x).prev = (s x).prev := by
    intro x hxr hxc
    rw [insertRelink_prev, if_neg hxr, if_neg hxc]
  have hPmem : ∀ x, (s r).prev = some x → x ∈ m1 := by
    intro x hxp
    rw [hP] at hxp
    exact mem_of_getLast? hxp
  refine ⟨?_, ?_, ?_, ?_, ?_, ?_, ?_, ?_, ?_⟩
  · -- mem
    intro x q
    rw [insertRelink_sup]
    by_cases hx : x = c
    · rw [if_pos hx, hx]
      constructor
      · intro hh
        obtain rfl : q = t := by injection hh with hh2; exact hh2.symm
        rw [Function.update_same]
        exact List.mem_append_right _ (List.mem_cons_self c _)
      · intro hh
        by_cases hq : q = t
        · rw [hq]
        · rw [Function.update_noteq hq] at hh
          exact absurd hh (hcnot q)
    · rw [if_neg hx, h.mem x q]
      by_cases hq : q = t
      · rw [hq, Function.update_same, hsplit]
        simp [List.mem_append, List.mem_cons, hx]
      · rw [Function.update_noteq hq]
  · -- nodup
    intro q
    by_cases hq : q = t
    · rw [hq, Function.update_same, List.nodup_append]
      refine ⟨hnd1, ?_, ?_⟩
      · rw [List.nodup_cons]
        refine ⟨?_, hndr2⟩
        simp only [List.mem_cons]
        rintro (he | he)
        · exact hcr he
        · exact hcm2 he
      · intro x hx hx2
        simp only [List.mem_cons] at hx2
        rcases hx2 with he | hx2
        · exact hcm1 (he ▸ hx)
        · exact hdisj12 x hx (List.mem_cons.mpr hx2)
    · rw [Function.update_noteq hq]
      exact h.nodup q
  · -- first_eq
    intro q
    rw [insertRelink_first]
    by_cases hq : q = t
    · rw [hq, Function.update_same]
      cases he : m1 with
      | nil =>
          rw [if_pos ⟨by rw [hP, he]; rfl, rfl⟩]
          rfl
      | cons a m1t =>
          have hcond : ¬((s r).prev = none ∧ t = t) := by
            intro hh
            rw [hP, he, List.getLast?_eq_getLast _ (by simp)] at hh
            exact Option.noConfusion hh.1
          rw [if_neg hcond, h.first_eq t, hsplit, he,
            head?_append_left (by simp), head?_append_left (by simp)]
    · rw [if_neg (fun hh => hq hh.2), Function.update_noteq hq]
      exact h.first_eq q
  · -- last_eq
    intro q
    rw [insertRelink_last]
    by_cases hq : q = t
    · rw [hq, Function.update_same, h.last_eq t, hsplit,
        List.getLast?_append_cons, List.getLast?_append_cons,
        List.getLast?_cons_cons]
    · rw [Function.update_noteq hq]
      exact h.last_eq q
  · -- nxt
    intro q
    by_cases hq : q = t
    · rw [hq, Function.update_same, List.chain'_append]
      refine ⟨?_, ?_, ?_⟩
      · apply chain_next_agree ?_ hnxtt.1
        intro x hx
        have hxm : x ∈ m1 := (List.dropLast_sublist _).subset hx
        refine hunext x (fun he => hcm1 (he ▸ hxm)) ?_
        intro heq
        rw [hP] at heq
        exact getLast?_not_mem_dropLast hnd1 heq hx
      · rw [List.chain'_cons]
        refine ⟨by rw [insertRelink_next, if_pos rfl], ?_⟩
        apply chain_next_agree ?_ hnxtt.2.1
        intro x hx
        have hxm : x ∈ r :: m2 := (List.dropLast_sublist _).subset hx
        have hxc : x ≠ c := fun he => by
          rcases List.mem_cons.mp (he ▸ hxm) with h2 | h2
          · exact hcr h2
          · exact hcm2 h2
        refine hunext x hxc ?_
        intro heq
        exact hdisj12 x (hPmem x heq) hxm
      · intro x hx y hy
        have hy2 : c = y := by simpa using hy
        have hx2 : m1.getLast? = some x := hx
        have hxc : ¬x = c := fun he => hcm1 (he ▸ mem_of_getLast? hx2)
        rw [insertRelink_next, if_neg hxc, if_pos (by rw [hP]; exact hx2), hy2]
    · rw [Function.update_noteq hq]
      apply chain_next_agree ?_ (h.nxt q)
      intro x hx
      have hxm : x ∈ cl q := (List.dropLast_sublist _).subset hx
      refine hunext x (fun he => hcnot q (he ▸ hxm)) ?_
      intro heq
      exact hq (h.mem_unique hxm (hm1sub x (hPmem x heq)))
  · -- prv
    intro q
    by_cases hq : q = t
    · rw [hq, Function.update_same, List.chain'_append]
      refine ⟨?_, ?_, ?_⟩
      · apply chain_prev_agree ?_ hprvt.1
        intro x hx
        have hxm : x ∈ m1 := List.mem_of_mem_tail hx
        exact huprev x (fun he => hrm1 (he ▸ hxm)) (fun he => hcm1 (he ▸ hxm))
      · rw [List.chain'_cons]
        refine ⟨by rw [insertRelink_prev, if_pos rfl], ?_⟩
        apply chain_prev_agree ?_ hprvt.2.1
        intro x hx
        have hxm : x ∈ m2 := by simpa using hx
        exact huprev x (fun he => hrm2 (he ▸ hxm)) (fun he => hcm2 (he ▸ hxm))
      · intro x hx y hy
        have hy2 : c = y := by simpa using hy
        have hx2 : m1.getLast? = some x := hx
        rw [← hy2, insertRelink_prev, if_neg hcr, if_pos rfl, hP]
        exact hx2
    · rw [Function.update_noteq hq]
      apply chain_prev_agree ?_ (h.prv q)
      intro x hx
      have hxm : x ∈ cl q := List.mem_of_mem_tail hx
      have hxr : x ≠ r := fun he => hq (h.mem_unique (he ▸ hxm) hrt)
      exact huprev x hxr (fun he => hcnot q (he ▸ hxm))
  · -- last_nxt
    intro q a ha
    by_cases hq : q = t
    · rw [hq, Function.update_same, List.getLast?_append_cons,
        List.getLast?_cons_cons] at ha
      have ham : a ∈ r :: m2 := mem_of_getLast? ha
      have hac : a ≠ c := fun he => by
        rcases List.mem_cons.mp (he ▸ ham) with h2 | h2
        · exact hcr h2
        · exact hcm2 h2
      rw [hunext a hac (fun heq => hdisj12 a (hPmem a heq) ham)]
      apply h.last_nxt t
      rw [hsplit, List.getLast?_append_cons]
      exact ha
    · rw [Function.update_noteq hq] at ha
      have haq : a ∈ cl q := mem_of_getLast? ha
      rw [hunext a (fun he => hcnot q (he ▸ haq))
        (fun heq => hq (h.mem_unique haq (hm1sub a (hPmem a heq))))]
      exact h.last_nxt q a ha
  · -- head_prv
    intro q a ha
    by_cases hq : q = t
    · rw [hq, Function.update_same] at ha
      cases he : m1 with
      | nil =>
          rw [he, List.nil_append, List.head?_cons] at ha
          have ha2 : a = c := by simpa using ha.symm
          rw [ha2, insertRelink_prev, if_neg hcr, if_pos rfl, hP, he]
          rfl
      | cons b m1t =>
          rw [he, head?_append_left (by simp), ← he] at ha
          have ham : a ∈ m1 := mem_of_head? ha
          rw [huprev a (fun h2 => hrm1 (h2 ▸ ham)) (fun h2 => hcm1 (h2 ▸ ham))]
          apply h.head_prv t
          rw [hsplit, head?_append_left (by rw [he]; simp)]
          exact ha
    · rw [Function.update_noteq hq] at ha
      have haq : a ∈ cl q := mem_of_head? ha
      have har : a ≠ r := fun he => hq (h.mem_unique (he ▸ haq) hrt)
      rw [huprev a har (fun he => hcnot q (he ▸ haq))]
      exact h.head_prv q a ha
  · -- size_eq
    intro q
    rw [insertRelink_size]
    by_cases hq : q = t
    · rw [hq, if_pos rfl, h.size_eq t, Function.update_same, hsplit]
      simp only [List.length_append, List.length_cons]
      push_cast
      ring
    · rw [if_neg hq, Function.update_noteq hq]
      exact h.size_eq q

/-! ### Lifting preservation through the exception-throwing entry points -/
lemma WF.cl_null_nil {s : Heap} {cl : ID → List ID} (h : WF s cl)
    (hf : (s nullId).first = none) : cl nullId = [] := by
  have h2 := h.first_eq nullId
  rw [hf] at h2
  cases h3 : cl nullId with
  | nil => rfl
  | cons a l =>
      rw [h3] at h2
      exact Option.noConfusion h2

lemma appendN_wf {s s2 : Heap} {cl : ID → List ID} {t c : ID} (h : WF s cl)
    (hok : appendN s t c = .ok s2) : ∃ cl2, WF s2 cl2 := by
  rw [appendN] at hok
  by_cases hty : (s t).type ≠ NType.tag
  · rw [if_pos hty] at hok
    exact absurd hok (by simp)
  rw [if_neg hty] at hok
  rcases hsu : (s c).sup with _ | p
  · rw [hsu] at hok
    simp only [] at hok
    by_cases hnul : (s c).type = NType.nul
    · rw [if_pos hnul] at hok
      exact absurd hok (by simp)
    · rw [if_neg hnul] at hok
      have he : appendCore s t c = s2 := by
        injection hok
      exact ⟨_, he ▸ appendCore_wf h hsu⟩
  · rw [hsu] at hok
    simp only [] at hok
    have h1 := detachAttached_wf h hsu
    have hsu1 : ((detachAttached s c p) c).sup = none := by
      rw [detachAttached_sup, if_pos rfl]
    by_cases hnul : ((detachAttached s c p) c).type = NType.nul
    · rw [if_pos hnul] at hok
      exact absurd hok (by simp)
    · rw [if_neg hnul] at hok
      have he : appendCore (detachAttached s c p) t c = s2 := by
        injection hok
      exact ⟨_, he ▸ appendCore_wf h1 hsu1⟩

lemma insertCore_wf {s s2 : Heap} {cl : ID → List ID} {t c r : ID} (h : WF s cl)
    (hr : r ∈ cl t) (hcr : c ≠ r)
    (hok : insertCore s t c r = .ok s2) : ∃ cl2, WF s2 cl2 := by
  rw [insertCore] at hok
  rcases hsu : (s c).sup with _ | p
  · rw [hsu] at hok
    simp only [] at hok
    by_cases hnul : (s c).type = NType.nul
    · rw [if_pos hnul] at hok
      exact absurd hok (by simp)
    · rw [if_neg hnul] at hok
      have he : insertRelink s t c r = s2 := by
        injection hok
      obtain ⟨m1, m2, hsp⟩ := List.append_of_mem hr
      exact ⟨_, he ▸ insertRelink_wf h hsu hsp⟩
  · rw [hsu] at hok
    simp only [] at hok
    have h1 := detachAttached_wf h hsu
    have hsu1 : ((detachAttached s c p) c).sup = none := by
      rw [detachAttached_sup, if_pos rfl]
    have hr1 : r ∈ (cl t).filter (fun x => decide (x ≠ c)) := by
      rw [List.mem_filter]
      exact ⟨hr, by simp only [decide_eq_true_eq]; exact fun h2 => hcr h2.symm⟩
    by_cases hnul : ((detachAttached s c p) c).type = NType.nul
    · rw [if_pos hnul] at hok
      exact absurd hok (by simp)
    · rw [if_neg hnul] at hok
      have he : insertRelink (detachAttached s c p) t c r = s2 := by
        injection hok
      obtain ⟨m1, m2, hsp⟩ := List.append_of_mem hr1
      exact ⟨_, he ▸ insertRelink_wf h1 hsu1 hsp⟩

lemma insertN_wf {s s2 : Heap} {cl : ID → List ID} {t c : ID} {ref : Option ID}
    (h : WF s cl)
    (hsafe : match ref with
      | some r => c ≠ r
      | none => (s t).first ≠ some c)
    (hok : insertN s t c ref = .ok s2) : ∃ cl2, WF s2 cl2 := by
  rw [insertN.eq_def] at hok
  by_cases hty : (s t).type ≠ NType.tag
  · rw [if_pos hty] at hok
    exact absurd hok (by simp)
  rw [if_neg hty] at hok
  rcases ref with _ | r
  · simp only [] at hok hsafe
    rcases hf : (s t).first with _ | r
    · rw [hf] at hok
      simp only [] at hok
      exact appendN_wf h hok
    · rw [hf] at hok
      simp only [] at hok
      have hr : r ∈ cl t := by
        have h2 := h.first_eq t
        rw [hf] at h2
        exact mem_of_head? h2.symm
      have hcr : c ≠ r := by
        intro he
        exact hsafe (he ▸ hf)
      exact insertCore_wf h hr hcr hok
  · simp only [] at hok hsafe
    by_cases hrs : (s r).sup ≠ some t
    · rw [if_pos hrs] at hok
      exact absurd hok (by simp)
    · rw [if_neg hrs] at hok
      push_neg at hrs
      exact insertCore_wf h ((h.mem r t).mp hrs) hsafe hok

lemma detachE_wf {s s2 : Heap} {cl : ID → List ID} {c : ID} (h : WF s cl)
    (hok : detach s c = .ok s2) : ∃ cl2, WF s2 cl2 := by
  rw [detach] at hok
  rcases hsu : (s c).sup with _ | p
  · rw [hsu] at hok
    exact absurd hok (by simp)
  · rw [hsu] at hok
    have he : detachAttached s c p = s2 := by
      injection hok
    exact ⟨_, he ▸ detachAttached_wf h hsu⟩

lemma removeN_wf {s s2 : Heap} {cl : ID → List ID} {t c : ID} (h : WF s cl)
    (hok : removeN s t c = .ok s2) : ∃ cl2, WF s2 cl2 := by
  rw [removeN] at hok
  by_cases hty : (s t).type ≠ NType.tag
  · rw [if_pos hty] at hok
    exact absurd hok (by simp)
  rw [if_neg hty] at hok
  by_cases hsc : scanFor s c ((s t).size.toNat) ((s t).first) = true
  · rw [if_pos hsc] at hok
    exact detachE_wf h hok
  · rw [if_neg hsc] at hok
    have he : s = s2 := by
      injection hok
    exact ⟨cl, he ▸ h⟩

lemma step_wf {s s2 : Heap} {cl : ID → List ID} {op : Op} (h : WF s cl)
    (hsafe : stepOKb s op = true)
    (hok : step s op = .ok s2) : ∃ cl2, WF s2 cl2 := by
  cases op with
  | append t c => exact appendN_wf h hok
  | insert t c ref =>
      refine insertN_wf h ?_ hok
      rcases ref with _ | r
      · simpa [stepOKb] using hsafe
      · simpa [stepOKb] using hsafe
  | detach c => exact detachE_wf h hok
  | remove t c => exact removeN_wf h hok

lemma run_wf : ∀ (ops : List Op) (s s2 : Heap), (∃ cl, WF s cl) →
    legalB s ops = true → run s ops = .ok s2 → ∃ cl2, WF s2 cl2 := by
  intro ops
  induction ops with
  | nil =>
      intro s s2 h _ hok
      have he : s = s2 := by
        rw [run] at hok
        injection hok
      exact he ▸ h
  | cons op rest ih =>
      intro s s2 h hleg hok
      obtain ⟨cl, hwf⟩ := h
      rw [run] at hok
      rw [legalB, Bool.and_eq_true] at hleg
      rcases hstep : step s op with e | s1
      · rw [hstep] at hok
        exact absurd hok (by simp)
      · rw [hstep] at hok hleg
        exact ih s1 s2 (step_wf hwf hleg.1 hstep) hleg.2 hok

/-- The empty child map certifies a heap of unlinked factory nodes. -/
lemma WF_init (ty : ID → NodeRec)
    (hfresh : ∀ i, (initHeap ty i).prev = none ∧ (initHeap ty i).next = none ∧
      (initHeap ty i).sup = none ∧ (initHeap ty i).first = none ∧
      (initHeap ty i).last = none ∧ (initHeap ty i).size = 0) :
    WF (initHeap ty) (fun _ => []) := by
  constructor <;> intro p
  · intro q
    simp [(hfresh p).2.2.1]
  · simp
  · simp [(hfresh p).2.2.2.1]
  · simp [(hfresh p).2.2.2.2.1]
  · simp
  · simp
  · intro a h; simp at h
  · intro a h; simp at h
  · simp [(hfresh p).2.2.2.2.2]

/-- Traversal counts from a well-formed heap: walking forward from `first`
reproduces the child list, walking backward from `last` reproduces its
reverse. -/
lemma WF.counts {s : Heap} {cl : ID → List ID} (h : WF s cl) (p : ID)
    (fuel : Nat) (hfuel : (cl p).length ≤ fuel) :
    chainF s fuel ((s p).first) = cl p ∧
    chainB s fuel ((s p).last) = (cl p).reverse := by
  constructor
  · rw [h.first_eq p]
    exact chainF_of_chain (cl p) fuel (h.nxt p) (h.last_nxt p) hfuel
  · rw [h.last_eq p]
    exact chainB_of_chain (cl p) fuel (h.prv p) (h.head_prv p) hfuel

lemma initHeap_fresh (ty : ID → NodeRec)
    (hty : ∀ i, (ty i).prev = none ∧ (ty i).next = none ∧ (ty i).sup = none ∧
      (ty i).first = none ∧ (ty i).last = none ∧ (ty i).size = 0) :
    ∀ i, (initHeap ty i).prev = none ∧ (initHeap ty i).next = none ∧
      (initHeap ty i).sup = none ∧ (initHeap ty i).first = none ∧
      (initHeap ty i).last = none ∧ (initHeap ty i).size = 0 := by
  intro i
  by_cases h : i = nullId
  · simp [initHeap, h, nullRec, freshRec]
  · simp only [initHeap, if_neg h]
    exact hty i

/-- C4, counterexample: after `t.append(c); t.insert(c, c)` — a finite
sequence of mutation calls that completes without throwing — tag 1 reports
`child_count` 1, yet its `lastNode` is null so the backward walk reaches 0
nodes, and the forward walk cycles (two steps still return nodes), so
neither count equals `child_count`. -/
theorem c4_counterexample :
    run (initHeap ty4) ops4 = .ok c4state ∧
    (c4state 1).size = 1 ∧
    (c4state 1).last = none ∧
    chainB c4state 1 ((c4state 1).last) = [] ∧
    chainF c4state 2 ((c4state 1).first) = [2, 2] := by
  refine ⟨rfl, ?_, ?_, ?_, ?_⟩ <;> decide

/-- C4 (amended): starting from factory-built nodes, after any finite
sequence of `append`/`insert`/`detach`/`remove` calls in which no `insert`
receives the inserted node itself as its (explicit or defaulted) reference,
every node's `size` equals the number of nodes reached from `firstNode` by
following `nextNode`, and equals the number reached backward from
`lastNode` by following `previousNode`. -/
theorem c4_amended_child_count (ty : ID → NodeRec) (ops : List Op) (s2 : Heap)
    (hty : ∀ i, (ty i).prev = none ∧ (ty i).next = none ∧ (ty i).sup = none ∧
      (ty i).first = none ∧ (ty i).last = none ∧ (ty i).size = 0)
    (hleg : legalB (initHeap ty) ops = true)
    (hok : run (initHeap ty) ops = .ok s2) :
    ∀ p fuel, (s2 p).size.toNat ≤ fuel →
      ((chainF s2 fuel ((s2 p).first)).length : Int) = (s2 p).size ∧
      ((chainB s2 fuel ((s2 p).last)).length : Int) = (s2 p).size := by
  obtain ⟨cl2, h2⟩ := run_wf ops (initHeap ty) s2
    ⟨_, WF_init ty (initHeap_fresh ty hty)⟩ hleg hok
  intro p fuel hfuel
  have hsz := h2.size_eq p
  have hlen : (cl2 p).length ≤ fuel := by
    rw [hsz] at hfuel
    simpa using hfuel
  obtain ⟨hf, hb⟩ := h2.counts p fuel hlen
  rw [hf, hb, hsz, List.length_reverse]
  exact ⟨rfl, rfl⟩

/-- C4, witness: the amended invariant holds concretely after one append. -/
theorem c4_witness :
    ((chainF c4wstate 1 ((c4wstate 1).first)).length : Int) = (c4wstate 1).size ∧
    ((chainB c4wstate 1 ((c4wstate 1).last)).length : Int) = (c4wstate 1).size := by
  refine c4_amended_child_count ty4 [Op.append 1 2] c4wstate ?_ (by decide) rfl 1 1 (by decide)
  intro i
  by_cases h : i = 1 <;> simp [ty4, h, tagRec, textRec, freshRec]

/-- C1, counterexample: on a tag that already has child 2, `insert(3)` with
the reference omitted makes 3 the FIRST child and leaves 2 the last child,
so it does not behave as `append` (which would make 3 the last child). -/
theorem c1_counterexample :
    run (initHeap ty4) [Op.append 1 2, Op.insert 1 3 none] = .ok c1state ∧
    (c1state 1).first = some 3 ∧
    (c1state 1).last = some 2 := by
  refine ⟨rfl, ?_, ?_⟩ <;> decide

/-- C1 (amended): `t.insert(c)` with `before` omitted behaves as `append`
only when `t` has no children; in general the detached node `c` is linked
in before the first child: it becomes the first (not the last) child,
`child_count` grows by one, and the previous children keep their order. -/
theorem c1_amended_insert_default (s s2 : Heap) (cl : ID → List ID) (t c : ID)
    (h : WF s cl) (htag : (s t).type = NType.tag) (hdet : (s c).sup = none)
    (hok : insertN s t c none = .ok s2) :
    ∃ cl2, WF s2 cl2 ∧ cl2 t = c :: cl t ∧ (∀ q, q ≠ t → cl2 q = cl q) ∧
      (s2 t).first = some c ∧ (s2 t).size = (s t).size + 1 := by
  rw [insertN.eq_def, if_neg (by simp [htag])] at hok
  simp only [] at hok
  rcases hf : (s t).first with _ | r
  · -- the tag is empty: the call delegated to append
    have hclnil : cl t = [] := by
      have h2 := h.first_eq t
      rw [hf] at h2
      cases h3 : cl t with
      | nil => rfl
      | cons a l => rw [h3] at h2; exact Option.noConfusion h2
    rw [hf] at hok
    simp only [] at hok
    rw [appendN, if_neg (by simp [htag]), hdet] at hok
    simp only [] at hok
    by_cases hnul : (s c).type = NType.nul
    · rw [if_pos hnul] at hok
      exact absurd hok (by simp)
    rw [if_neg hnul] at hok
    have he : appendCore s t c = s2 := by injection hok
    have h2 := appendCore_wf (t := t) h hdet
    rw [he] at h2
    refine ⟨_, h2, ?_, ?_, ?_, ?_⟩
    · rw [Function.update_same, hclnil]
      rfl
    · intro q hq
      rw [Function.update_noteq hq]
    · rw [h2.first_eq t, Function.update_same, hclnil]
      rfl
    · rw [h2.size_eq t, Function.update_same, h.size_eq t, hclnil]
      rfl
  · -- the tag has children: the node lands before the first child
    have hr : cl t = [] ++ r :: (cl t).tail := by
      have h2 := h.first_eq t
      rw [hf] at h2
      cases h3 : cl t with
      | nil => rw [h3] at h2; exact Option.noConfusion h2
      | cons a l =>
          rw [h3] at h2
          rw [List.nil_append, List.tail_cons]
          rw [List.head?_cons, Option.some_inj] at h2
          rw [h2]
    rw [hf] at hok
    simp only [] at hok
    rw [insertCore, hdet] at hok
    simp only [] at hok
    by_cases hnul : (s c).type = NType.nul
    · rw [if_pos hnul] at hok
      exact absurd hok (by simp)
    rw [if_neg hnul] at hok
    have he : insertRelink s t c r = s2 := by injection hok
    have h2 := insertRelink_wf h hdet hr
    rw [he] at h2
    have hcl2 : ([] : List ID) ++ c :: r :: (cl t).tail = c :: cl t := by
      rw [List.nil_append]
      congr 1
      conv_rhs => rw [hr]
      rfl
    refine ⟨_, h2, ?_, ?_, ?_, ?_⟩
    · rw [Function.update_same, hcl2]
    · intro q hq
      rw [Function.update_noteq hq]
    · rw [h2.first_eq t, Function.update_same, hcl2]
      rfl
    · rw [h2.size_eq t, Function.update_same, h.size_eq t, hcl2]
      rw [List.length_cons]
      push_cast
      ring

/-- C1, witness: inserting into an empty tag concretely yields child list
`[2]`, first child 2, size one. -/
theorem c1_witness :
    ∃ cl2, WF c1wstate cl2 ∧ cl2 1 = [2] ∧ (∀ q, q ≠ 1 → cl2 q = []) ∧
      (c1wstate 1).first = some 2 ∧ (c1wstate 1).size = (initHeap ty4 1).size + 1 := by
  have h := c1_amended_insert_default (initHeap ty4) c1wstate (fun _ => []) 1 2
    (WF_init ty4 (initHeap_fresh ty4 (by
      intro i
      by_cases h : i = 1 <;> simp [ty4, h, tagRec, textRec, freshRec])))
    (by decide) rfl rfl
  simpa using h

/-- C10: calling `detach()` on any node whose parent link is null — a fresh
factory node, an already-detached node, or the null singleton — throws from
dereferencing the absent parent; it is neither a silent no-op nor a guarded
`TypeError`/`RangeError` failure. -/
theorem c10_detach_detached_crashes (s : Heap) (c : ID)
    (h : (s c).sup = none) : detach s c = .error .nullCrash := by
  rw [detach, h]

/-- C10, witness: detach of a fresh factory node crashes concretely. -/
theorem c10_witness : detach (initHeap ty4) 2 = .error .nullCrash :=
  c10_detach_detached_crashes (initHeap ty4) 2 rfl

/-! ### Null-safe navigation (claim C5) -/

/-- The `$navigate` loop refines the option-monad walk: it returns the node
the walk reaches, or the null sentinel when the walk runs past a
boundary. -/
lemma navigate_eq_walk (s : Heap) (d : Dir) : ∀ (n : Nat) (i : ID),
    navigate s d i n = (walkOpt s d i n).getD nullId := by
  intro n
  induction n with
  | zero => intro i; rfl
  | succ m ih =>
      intro i
      rw [navigate, walkOpt]
      cases navStep s d i with
      | none => rfl
      | some j => exact ih j

/-- Stepping from the null node goes nowhere: its links are all null. -/
lemma navigate_null (s : Heap) (d : Dir)
    (hnl : (s nullId).prev = none ∧ (s nullId).next = none ∧ (s nullId).sup = none) :
    ∀ n, navigate s d nullId n = nullId := by
  intro n
  cases n with
  | zero => rfl
  | succ m =>
      rw [navigate]
      have hstep : navStep s d nullId = none := by
        cases d with
        | toPrev => exact hnl.1
        | toSup => exact hnl.2.2
        | toNext => exact hnl.2.1
      rw [hstep]

/-- What the `$navigateTag` loop can return: the null sentinel (boundary
overrun) or, in the sibling directions, a node that passed the tag
filter. -/
lemma navTagLoop_shape (s : Heap) (d : Dir) : ∀ (fuel : Nat) (i : ID)
    (f : Nat ⊕ Str) (x : ID), navTagLoop s d i f fuel = some x →
    x = nullId ∨ (d ≠ Dir.toSup → (s x).type = NType.tag) := by
  intro fuel
  induction fuel with
  | zero => intro i f x hx; exact Option.noConfusion hx
  | succ m ih =>
      intro i f x hx
      rw [navTagLoop] at hx
      rcases hstep : navStep s d i with _ | j
      · rw [hstep] at hx
        left
        exact (Option.some_inj.mp hx).symm
      · rw [hstep] at hx
        simp only [] at hx
        by_cases hskip : d ≠ Dir.toSup ∧ (s j).type ≠ NType.tag
        · rw [if_pos hskip] at hx
          exact ih j f x hx
        · rw [if_neg hskip] at hx
          have hjtag : d ≠ Dir.toSup → (s j).type = NType.tag := by
            intro hd
            by_contra hjt
            exact hskip ⟨hd, hjt⟩
          rcases f with n | nm
          · simp only [] at hx
            by_cases hn : n - 1 = 0
            · rw [if_pos hn] at hx
              right
              exact (Option.some_inj.mp hx) ▸ hjtag
            · rw [if_neg hn] at hx
              exact ih j (.inl (n - 1)) x hx
          · simp only [] at hx
            by_cases hnm : some nm = (s j).name
            · rw [if_pos hnm] at hx
              right
              exact (Option.some_inj.mp hx) ▸ hjtag
            · rw [if_neg hnm] at hx
              exact ih j (.inr nm) x hx

/-- C5: in any state where exactly the sentinel node has the Null kind and
the sentinel's record is untouched, (a) `isNull()` holds for the sentinel
and only for it; (b) the `$navigate` loop equals the reference walk with
boundary overruns mapped to the sentinel, so running past an end yields the
Null node, from which (c) all further navigation stays on the Null node;
(d) the `$navigateTag` loop likewise only returns the sentinel or a
matching node; (e) `first()`/`last()` of a childless node and (f)
`firstTag()` of a childless node are the sentinel; and (g) the mutation
calls `append`/`insert`/`remove` invoked on the Null node all fail with the
guarded TypeError (`typeMismatch`), never with a crash. -/
theorem c5_null_navigation (s : Heap)
    (hty : ∀ i, (s i).type = NType.nul ↔ i = nullId)
    (hnl : (s nullId).prev = none ∧ (s nullId).next = none ∧
      (s nullId).sup = none ∧ (s nullId).first = none ∧ (s nullId).last = none) :
    (∀ i, isNullF s i = true ↔ i = nullId) ∧
    (∀ d i n, navigate s d i n = (walkOpt s d i n).getD nullId) ∧
    (∀ d i n, walkOpt s d i n = none → navigate s d i n = nullId) ∧
    (∀ d n, navigate s d nullId n = nullId) ∧
    (∀ d fuel i f x, navTagLoop s d i f fuel = some x →
      x = nullId ∨ (d ≠ Dir.toSup → (s x).type = NType.tag)) ∧
    (∀ i, (s i).first = none → firstF s i = nullId) ∧
    (∀ i, (s i).last = none → lastF s i = nullId) ∧
    (∀ i nm fuel, (s i).first = none → 0 < fuel →
      firstTagF s i nm fuel = some nullId) ∧
    (∀ c, appendN s nullId c = .error .typeMismatch) ∧
    (∀ c ref, insertN s nullId c ref = .error .typeMismatch) ∧
    (∀ c, removeN s nullId c = .error .typeMismatch) := by
  have hnultype : (s nullId).type = NType.nul := (hty nullId).mpr rfl
  have hnottag : (s nullId).type ≠ NType.tag := by
    rw [hnultype]
    exact fun h => NType.noConfusion h
  refine ⟨?_, ?_, ?_, ?_, ?_, ?_, ?_, ?_, ?_, ?_, ?_⟩
  · intro i
    rw [isNullF]
    constructor
    · intro h
      exact (hty i).mp (by simpa using h)
    · intro h
      simp [h, hnultype]
  · intro d i n
    exact navigate_eq_walk s d n i
  · intro d i n hw
    rw [navigate_eq_walk s d n i, hw]
    rfl
  · intro d n
    exact navigate_null s d ⟨hnl.1, hnl.2.1, hnl.2.2.1⟩ n
  · intro d fuel i f x
    exact navTagLoop_shape s d fuel i f x
  · intro i hf
    rw [firstF, hf]
  · intro i hl
    rw [lastF, hl]
  · intro i nm fuel hf hfuel
    have hr1 : firstF s i = nullId := by rw [firstF, hf]
    have hnav : navigateTag s Dir.toNext nullId (.byCount 1) fuel = some nullId := by
      rw [navigateTag, if_neg (by simp)]
      cases fuel with
      | zero => exact absurd hfuel (by simp)
      | succ m =>
          rw [navTagLoop]
          have hstep : navStep s Dir.toNext nullId = none := hnl.2.1
          rw [hstep]
    have hnavnm : ∀ v, navigateTag s Dir.toNext nullId (.byName v) fuel = some nullId := by
      intro v
      rw [navigateTag]
      cases fuel with
      | zero => exact absurd hfuel (by simp)
      | succ m =>
          rw [navTagLoop]
          have hstep : navStep s Dir.toNext nullId = none := hnl.2.1
          rw [hstep]
    simp only [firstTagF, hr1]
    rw [if_pos (by simpa using hnottag), hnav]
    by_cases hnm : nm ≠ [] ∧ some nm ≠ (s nullId).name
    · simp only [if_pos hnm]
      exact hnavnm nm
    · simp only [if_neg hnm]
  · intro c
    rw [appendN, if_pos hnottag]
  · intro c ref
    rw [insertN.eq_def, if_pos hnottag]
  · intro c
    rw [removeN, if_pos hnottag]

/-- C5, witness: concretely, in the initial factory heap `isNull` holds
exactly at the sentinel and `append` on the sentinel fails TypeMismatch. -/
theorem c5_witness :
    isNullF (initHeap ty4) 0 = true ∧
    appendN (initHeap ty4) nullId 2 = Except.error Err.typeMismatch := by
  have h := c5_null_navigation (initHeap ty4)
    (by
      intro i
      by_cases h0 : i = 0
      · simp [initHeap, nullId, h0, nullRec, freshRec]
      · by_cases h1 : i = 1 <;>
          simp [initHeap, nullId, h0, h1, ty4, tagRec, textRec, freshRec])
    (by exact ⟨rfl, rfl, rfl, rfl, rfl⟩)
  exact ⟨(h.1 0).mpr rfl, h.2.2.2.2.2.2.2.2.1 2⟩

lemma unescAux_semi (entR r : Str) :
    unescAux (some entR) (59 :: r) = entDecide entR.reverse r := by
  rw [unescAux, if_pos rfl]
  rfl

lemma unescAux_acc : ∀ (ent : Str) (accR rest : Str), 59 ∉ ent →
    unescAux (some accR) (ent ++ 59 :: rest) =
      entDecide (accR.reverse ++ ent) rest := by
  intro ent
  induction ent with
  | nil =>
      intro accR rest _
      rw [List.nil_append, unescAux_semi, List.append_nil]
  | cons c ent2 ih =>
      intro accR rest hno
      have hc : c ≠ 59 := fun he => hno (he ▸ List.mem_cons_self c ent2)
      rw [List.cons_append, unescAux, if_neg hc,
        ih (c :: accR) rest (fun hm => hno (List.mem_cons_of_mem c hm))]
      congr 1
      rw [List.reverse_cons, List.append_assoc]
      rfl

/-- Opening an escape: `&` switches the scanner into entity mode. -/
lemma unesc_amp (rest : Str) : unesc (38 :: rest) = unescAux (some []) rest := by
  rw [unesc, unescAux, if_pos rfl]

/-- An escape whose name is not numeric and not one of the five recognized
symbols is copied through verbatim, and scanning continues after the
`;` — it does not fail the parse. -/
lemma unknown_entity_passthrough (ent rest : Str) (h59 : 59 ∉ ent)
    (hhash : ent.head? ≠ some 35) (hknown : entChar ent = none) :
    unesc (38 :: ent ++ 59 :: rest) = prependURes (38 :: ent ++ [59]) (unesc rest) := by
  rw [List.cons_append, unesc_amp, unescAux_acc ent [] rest h59, List.reverse_nil,
    List.nil_append, entDecide, if_neg hhash, hknown]
  rw [List.cons_append]
  rfl

/-- A numeric escape whose digits fail `parseInt` makes the whole decode
return the `null` sentinel, whatever follows. -/
lemma numeric_entity_nan (ds rest : Str) (h59 : 59 ∉ ds)
    (hnan : numEntityVal ds = none) :
    unesc (38 :: 35 :: ds ++ 59 :: rest) = .nullErr := by
  have h59a : 59 ∉ 35 :: ds := by
    intro h
    rcases List.mem_cons.mp h with h2 | h2
    · exact absurd h2 (by decide)
    · exact h59 h2
  have hsplit : (35 :: ds) ++ 59 :: rest = 35 :: ds ++ 59 :: rest := rfl
  rw [show 38 :: 35 :: ds ++ 59 :: rest = 38 :: ((35 :: ds) ++ 59 :: rest) from rfl,
    unesc_amp, unescAux_acc (35 :: ds) [] rest h59a, List.reverse_nil, List.nil_append,
    entDecide, if_pos (by rw [List.head?_cons]), List.drop_one, List.tail_cons, hnan]

/-- C6: decoding the escaped form returns the original string — for every
string, including any containing the characters `< > " ' &`,
`UXMLParser.unescape (UXMLFormatter.escape (s, default pattern))` is `s`. -/
theorem c6_escape_unescape_roundtrip :
    ∀ (l : Str), unesc (escape escDefault l) = .ok l := by
  intro l
  induction l with
  | nil => rfl
  | cons c r ih =>
      rw [escape]
      by_cases hp : escDefault c = true
      · rw [if_pos hp]
        have h5 : c = 60 ∨ c = 62 ∨ c = 34 ∨ c = 39 ∨ c = 38 := by
          simpa [escDefault, or_assoc] using hp
        have ih2 : unescAux none (escape escDefault r) = .ok r := ih
        rcases h5 with rfl | rfl | rfl | rfl | rfl <;>
          simp [escEnt, unesc, unescAux, entChar, consURes, entDecide, ih2]
      · rw [if_neg hp]
        have hc38 : c ≠ 38 := fun he => hp (by simp [escDefault, he])
        show unesc ([c] ++ escape escDefault r) = .ok (c :: r)
        rw [List.singleton_append, unesc, unescAux, if_neg hc38]
        show consURes c (unesc (escape escDefault r)) = .ok (c :: r)
        rw [ih]
        rfl

/-- C2, counterexample: parsing `<a>&foo;</a>` — an escape whose name is unknown and does not
start with `#` — succeeds (outcome 4, bare node) and stores the text run
`&foo;` verbatim, contradicting the whole-parse-fails claim. -/
theorem c2_counterexample :
    pKind (uxmlParse (str "<a>&foo;</a>") 400) = 4 ∧
    pChild1Val (uxmlParse (str "<a>&foo;</a>") 400) = some (str "&foo;") := by
  decide

/-- C2 (amended): an unrecognized named escape `&name;` is copied through
verbatim and decoding continues after the `;`; only a numeric escape whose
digits fail `parseInt` makes `unescape` return the `null` sentinel, and
that failure propagates: `UXML.parse` on `<a>&#q;</a>` raises SyntaxError
(outcome 0). -/
theorem c2_amended_entity_errors (ent ds rest : Str)
    (h59 : 59 ∉ ent) (hhash : ent.head? ≠ some 35) (hknown : entChar ent = none)
    (h59d : 59 ∉ ds) (hnan : numEntityVal ds = none) :
    unesc (38 :: ent ++ 59 :: rest) = prependURes (38 :: ent ++ [59]) (unesc rest) ∧
    unesc (38 :: 35 :: ds ++ 59 :: rest) = .nullErr ∧
    pKind (uxmlParse (str "<a>&#q;</a>") 400) = 0 :=
  ⟨unknown_entity_passthrough ent rest h59 hhash hknown,
   numeric_entity_nan ds rest h59d hnan, by decide⟩

/-- C2 witness: the amended theorem at `ent = foo`, `ds = q`,
`rest = x`. -/
theorem c2_witness :
    unesc (38 :: str "foo" ++ 59 :: str "x") =
      prependURes (38 :: str "foo" ++ [59]) (unesc (str "x")) ∧
    unesc (38 :: 35 :: str "q" ++ 59 :: str "x") = .nullErr ∧
    pKind (uxmlParse (str "<a>&#q;</a>") 400) = 0 :=
  c2_amended_entity_errors (str "foo") (str "q") (str "x")
    (by decide) (by decide) (by decide) (by decide) (by decide)

/-- C3: entity decoding is NOT applied to attribute-value runs — parsing
`<r a="p&amp;q"/>` stores the raw source text `p&amp;q` on the attribute
map instead of the decoded `p&q`, and re-formatting that stored value
escapes its literal `&` again, producing `p&amp;amp;q`: the documented
attribute round-trip is broken. -/
theorem c3_attr_value_not_decoded :
    pAttrs (uxmlParse (str "<r a=\"p&amp;q\"/>") 400) =
      some [(str "a", str "p&amp;q")] ∧
    escape escDefault (str "p&amp;q") = str "p&amp;amp;q" := by
  decide

/-- C8, counterexample: a `<?…?>` encountered only after the root tag has opened makes the
parse return the JS `undefined` (outcome 5) — neither a `UXMLDocument` nor
the bare root node, contradicting the exactly-when claim. -/
theorem c8_counterexample :
    pKind (uxmlParse (str "<r><?x?></r>") 400) = 5 := by
  decide


/-- C9, counterexample: formatting a plain node with `omitSelf` and `noIndentFirst` requested
together succeeds — producing the child's markup — instead of failing
with the claimed configuration error. -/
theorem c9_counterexample :
    format c9state (.fnode 1) 0 ⟨true, true, 0⟩ escDefault 64 = .ok (str "<b/>") := by
  rfl

/-- C9 (amended): only the `UXMLDocument` conflicts are guarded — a
Document with `omitSelf` or with `noIndentFirst` raises RangeError before
any output; `omitSelf` together with `noIndentFirst` on a plain node is
not checked: it renders the children (succeeding here), and when there is
no output at all it crashes on `buf[0].trimLeft()` instead of raising a
configuration error. -/
theorem c9_amended_option_conflicts (pis : List Str) (root : ID) (h : Heap)
    (indent : Nat) (opts : FmtOpts) (esc : Nat → Bool) (fuel : Nat)
    (hconf : opts.omitSelf = true ∨ opts.noIndentFirst = true) :
    format h (.fdoc pis root) indent opts esc fuel = .error .rangeErr ∧
    format c9state (.fnode 1) 0 ⟨true, true, 0⟩ escDefault 64 = .ok (str "<b/>") ∧
    format (initHeap ty9) (.fnode 1) 0 ⟨true, true, 0⟩ escDefault 64 = .error .crash := by
  refine ⟨?_, by rfl, by rfl⟩
  show (if opts.omitSelf || opts.noIndentFirst then _ else _) = _
  rcases hconf with h1 | h1 <;> simp [h1]

/-- C9, witness: the amended theorem at a concrete Document, with
`noIndentFirst` set. -/
theorem c9_witness :
    format (initHeap ty9) (.fdoc [str "<?xml?>"] 1) 0 ⟨false, true, 0⟩ escDefault 64 =
      .error .rangeErr ∧
    format c9state (.fnode 1) 0 ⟨true, true, 0⟩ escDefault 64 = .ok (str "<b/>") ∧
    format (initHeap ty9) (.fnode 1) 0 ⟨true, true, 0⟩ escDefault 64 = .error .crash :=
  c9_amended_option_conflicts [str "<?xml?>"] 1 (initHeap ty9) 0
    ⟨false, true, 0⟩ escDefault 64 (Or.inr rfl)

/-- C7, counterexample: on a tag whose Text children are `" "` and `"x"`, evaluating the
heuristic answers false and detaches nothing: the whitespace-only Text
child 2 keeps its parent and the child count stays 2, contradicting the
claim that evaluation permanently deletes every direct whitespace-only
Text child. -/
theorem c7_counterexample :
    ciBool (canIndent c7state 2 1 64) = some false ∧
    ciSup (canIndent c7state 2 1 64) 2 = some (some 1) ∧
    ciSize (canIndent c7state 2 1 64) 1 = some 2 := by
  decide

/-- The scan loop, summarized: started on the suffix `l2` of the child
list it answers exactly `l2.all (ciOk s)`, provided every Text child
still ahead has a value and the fuel covers the suffix. -/
lemma ciScan_spec {s : Heap} {cl : ID → List ID} (h : WF s cl) (i : ID) :
    ∀ (l2 l1 : List ID) (fuel : Nat), cl i = l1 ++ l2 → l2.length < fuel →
      (∀ c ∈ l2, (s c).type = NType.text → (s c).value ≠ none) →
      ciScan s fuel l2.head? = .ok (l2.all (ciOk s)) := by
  intro l2
  induction l2 with
  | nil =>
      intro l1 fuel _ _ _
      cases fuel <;> rfl
  | cons c l2' ih =>
      intro l1 fuel hsplit hfuel hvals
      obtain ⟨fl, rfl⟩ : ∃ fl, fuel = fl + 1 := ⟨fuel - 1, by omega⟩
      have hnext : (s c).next = l2'.head? := h.next_of_split hsplit
      have hc : c ∈ c :: l2' := List.mem_cons_self c l2'
      have hsplit' : cl i = (l1 ++ [c]) ++ l2' := by
        rw [hsplit, List.append_assoc, List.singleton_append]
      have hvals' : ∀ x ∈ l2', (s x).type = NType.text → (s x).value ≠ none :=
        fun x hx => hvals x (List.mem_cons_of_mem c hx)
      have hrec : ciScan s fl l2'.head? = .ok (l2'.all (ciOk s)) :=
        ih (l1 ++ [c]) fl hsplit' (by simp at hfuel ⊢; omega) hvals'
      simp only [List.head?_cons, ciScan]
      by_cases ht : (s c).type = NType.text
      · rw [if_pos ht]
        rcases hv : (s c).value with _ | v
        · exact absurd hv (hvals c hc ht)
        · have hciok : ciOk s c = ofSpace v := by rw [ciOk, if_pos ht, hv]
          simp only []
          by_cases hsp : ofSpace v = true
          · rw [if_pos hsp, hnext, hrec, List.all_cons, hciok, hsp, Bool.true_and]
          · rw [if_neg hsp, List.all_cons, hciok,
              Bool.eq_false_iff.mpr hsp, Bool.false_and]
      · have hciok : ciOk s c = decide ((s c).type ≠ NType.cdata) := by
          rw [ciOk, if_neg ht]
        rw [if_neg ht]
        by_cases hcd : (s c).type = NType.cdata
        · rw [if_pos hcd, List.all_cons, hciok, hcd]
          simp
        · rw [if_neg hcd, hnext, hrec, List.all_cons, hciok,
            decide_eq_true (by exact hcd), Bool.true_and]

/-- Transfer well-formedness along a pointwise-equal child map. -/
lemma WF.congr {s : Heap} {cl cl2 : ID → List ID} (h : WF s cl)
    (he : ∀ q, cl q = cl2 q) : WF s cl2 :=
  (funext he : cl = cl2) ▸ h

/-- The detach loop, summarized: started on the suffix `l2` of tag `i`'s
child list it never fails, detaches exactly the Text nodes of `l2` (their
parent link becomes null), leaves every node's type alone, and leaves a
well-formed forest in which `i`'s children are the prefix already kept
plus the non-Text part of `l2`. -/
lemma ciDetach_spec (i : ID) :
    ∀ (l2 : List ID) (fuel : Nat) (s : Heap) (cl : ID → List ID) (l1f : List ID),
      WF s cl → cl i = l1f ++ l2 → l2.length < fuel →
      ∃ s2, ciDetach s fuel l2.head? = .ok s2 ∧
        WF s2 (fun q => if q = i
          then l1f ++ l2.filter (fun x => decide ((s x).type ≠ NType.text))
          else cl q) ∧
        (∀ x, (s2 x).type = (s x).type) ∧
        (∀ x, (s x).sup = none → (s2 x).sup = none) ∧
        (∀ x ∈ l2, (s x).type = NType.text → (s2 x).sup = none) := by
  intro l2
  induction l2 with
  | nil =>
      intro fuel s cl l1f hwf hsplit _
      refine ⟨s, by cases fuel <;> rfl, ?_, fun x => rfl, fun x hx => hx, by simp⟩
      refine hwf.congr ?_
      intro q
      by_cases hq : q = i
      · subst hq
        rw [if_pos rfl, List.filter_nil, List.append_nil, hsplit, List.append_nil]
      · rw [if_neg hq]
  | cons c l2' ih =>
      intro fuel s cl l1f hwf hsplit hfuel
      obtain ⟨fl, rfl⟩ : ∃ fl, fuel = fl + 1 := ⟨fuel - 1, by omega⟩
      have hnext : (s c).next = l2'.head? := hwf.next_of_split hsplit
      have hnd := hwf.nodup i
      rw [hsplit] at hnd
      have hnda := List.nodup_append.mp hnd
      have hcl1 : c ∉ l1f := fun hc => hnda.2.2 hc (List.mem_cons_self c l2')
      have hcl2 : c ∉ l2' := (List.nodup_cons.mp hnda.2.1).1
      have hcmem : c ∈ cl i := by
        rw [hsplit]
        exact List.mem_append_right _ (List.mem_cons_self c l2')
      by_cases ht : (s c).type = NType.text
      · have hsupc : (s c).sup = some i := (hwf.mem c i).mpr hcmem
        have hwf' : WF (detachAttached s c i)
            (fun q => if q = i then l1f ++ l2' else cl q) := by
          refine (detachAttached_wf hwf hsupc).congr ?_
          intro q
          by_cases hq : q = i
          · subst hq
            rw [if_pos rfl, hsplit, List.filter_append, List.filter_cons]
            rw [if_neg (by simp : ¬(decide (c ≠ c) = true))]
            congr 1
            · apply List.filter_eq_self.mpr
              intro a ha
              simp only [decide_eq_true_eq]
              intro he
              subst he
              exact hcl1 ha
            · apply List.filter_eq_self.mpr
              intro a ha
              simp only [decide_eq_true_eq]
              intro he
              subst he
              exact hcl2 ha
          · rw [if_neg hq]
            apply List.filter_eq_self.mpr
            intro a ha
            simp only [decide_eq_true_eq]
            intro he
            subst he
            exact hq (hwf.mem_unique ha hcmem)
        obtain ⟨s2, hrun, hwf2, htype, hsupn, hsups⟩ :=
          ih fl (detachAttached s c i) (fun q => if q = i then l1f ++ l2' else cl q)
            l1f hwf' (by simp) (by simp only [List.length_cons] at hfuel; omega)
        refine ⟨s2, ?_, ?_, ?_, ?_, ?_⟩
        · show ciDetach s (fl + 1) (c :: l2').head? = .ok s2
          simp only [List.head?_cons, ciDetach]
          rw [if_pos ht]
          simp only [hsupc, hnext]
          exact hrun
        · refine hwf2.congr ?_
          intro q
          by_cases hq : q = i
          · subst hq
            simp only [if_pos rfl, List.filter_cons]
            rw [if_neg (by simp [ht] : ¬(decide ((s c).type ≠ NType.text) = true))]
            refine congrArg (fun t => l1f ++ t) (List.filter_congr ?_)
            intro x _
            rw [detachAttached_type]
          · simp only [if_neg hq]
        · intro x
          rw [htype x, detachAttached_type]
        · intro x hx
          refine hsupn x ?_
          rw [detachAttached_sup]
          by_cases hxc : x = c
          · rw [if_pos hxc]
          · rw [if_neg hxc]
            exact hx
        · intro x hx hxt
          rcases List.mem_cons.mp hx with rfl | hx2
          · refine hsupn x ?_
            rw [detachAttached_sup, if_pos rfl]
          · refine hsups x hx2 ?_
            rw [detachAttached_type]
            exact hxt
      · obtain ⟨s2, hrun, hwf2, htype, hsupn, hsups⟩ :=
          ih fl s cl (l1f ++ [c]) hwf
            (by rw [hsplit, List.append_assoc, List.singleton_append])
            (by simp only [List.length_cons] at hfuel; omega)
        refine ⟨s2, ?_, ?_, htype, hsupn, ?_⟩
        · show ciDetach s (fl + 1) (c :: l2').head? = .ok s2
          simp only [List.head?_cons, ciDetach]
          rw [if_neg ht]
          simp only [hnext]
          exact hrun
        · refine hwf2.congr ?_
          intro q
          by_cases hq : q = i
          · subst hq
            simp only [if_pos rfl, List.filter_cons]
            rw [if_pos (decide_eq_true ht)]
            rw [List.append_assoc, List.singleton_append]
          · simp only [if_neg hq]
        · intro x hx hxt
          rcases List.mem_cons.mp hx with rfl | hx2
          · exact absurd hxt ht
          · exact hsups x hx2 hxt

/-- C7 (amended): on a well-formed tree, `canIndent` answers true exactly
when the indent width is non-zero, every direct Text child is
whitespace-only, and no direct child is CDATA; when it answers FALSE it
detaches nothing (the heap is returned untouched — in particular
whitespace-only Text children survive); only when it answers true does it
permanently detach every direct Text child, leaving a well-formed tree
without them. -/
theorem c7_amended_indent_heuristic (s : Heap) (cl : ID → List ID) (i : ID)
    (indent fuel : Nat) (hwf : WF s cl) (hfuel : (cl i).length < fuel)
    (hvals : ∀ c ∈ cl i, (s c).type = NType.text → (s c).value ≠ none) :
    ∃ b s2, canIndent s indent i fuel = .ok (b, s2) ∧
      b = indentOkB s indent (cl i) ∧
      (b = true ↔ indent ≠ 0 ∧
        (∀ c ∈ cl i, (s c).type = NType.text →
          ∀ v, (s c).value = some v → ofSpace v = true) ∧
        (∀ c ∈ cl i, (s c).type ≠ NType.cdata)) ∧
      (b = false → s2 = s) ∧
      (b = true →
        WF s2 (fun q => if q = i
            then (cl i).filter (fun x => decide ((s x).type ≠ NType.text))
            else cl q) ∧
        ∀ c ∈ cl i, (s c).type = NType.text → (s2 c).sup = none) := by
  have hiff : (cl i).all (ciOk s) = true ↔
      (∀ c ∈ cl i, (s c).type = NType.text →
        ∀ v, (s c).value = some v → ofSpace v = true) ∧
      (∀ c ∈ cl i, (s c).type ≠ NType.cdata) := by
    rw [List.all_eq_true]
    constructor
    · intro hall
      constructor
      · intro c hc htx v hv
        have := hall c hc
        rw [ciOk, if_pos htx, hv] at this
        exact this
      · intro c hc hcd
        have := hall c hc
        rw [ciOk, if_neg (by rw [hcd]; decide), hcd] at this
        simp at this
    · intro ⟨hws, hcd⟩ c hc
      rw [ciOk]
      by_cases htx : (s c).type = NType.text
      · rw [if_pos htx]
        rcases hv : (s c).value with _ | v
        · exact absurd hv (hvals c hc htx)
        · exact hws c hc htx v hv
      · rw [if_neg htx]
        exact decide_eq_true (hcd c hc)
  by_cases hind : indent = 0
  · refine ⟨false, s, ?_, ?_, ?_, fun _ => rfl, fun hb => absurd hb (by decide)⟩
    · rw [canIndent, if_pos hind]
    · rw [indentOkB, decide_eq_false (by simp [hind]), Bool.false_and]
    · exact iff_of_false (by decide) (fun hg => hg.1 hind)
  · have hscan : ciScan s fuel ((s i).first) = .ok ((cl i).all (ciOk s)) := by
      rw [hwf.first_eq i]
      exact ciScan_spec hwf i (cl i) [] fuel rfl hfuel hvals
    by_cases hall : (cl i).all (ciOk s) = true
    · obtain ⟨s2, hrun, hwf2, _, _, hsups⟩ :=
        ciDetach_spec i (cl i) fuel s cl [] hwf rfl hfuel
      refine ⟨true, s2, ?_, ?_, ?_, fun hb => absurd hb (by decide), fun _ => ⟨?_, ?_⟩⟩
      · rw [canIndent, if_neg hind, hscan, hall]
        simp only []
        rw [hwf.first_eq i, hrun]
      · rw [indentOkB, hall, decide_eq_true hind, Bool.true_and]
      · exact iff_of_true rfl ⟨hind, hiff.mp hall⟩
      · refine hwf2.congr ?_
        intro q
        by_cases hq : q = i
        · subst hq
          simp only [if_pos rfl, List.nil_append]
        · simp only [if_neg hq]
      · exact hsups
    · refine ⟨false, s, ?_, ?_, ?_, fun _ => rfl, fun hb => absurd hb (by decide)⟩
      · rw [canIndent, if_neg hind, hscan,
          Bool.eq_false_iff.mpr hall]
      · rw [indentOkB, Bool.eq_false_iff.mpr hall, Bool.and_false]
      · exact iff_of_false (by decide) (fun hg => hall (hiff.mpr hg.2))

/-- C7, witness: on the concrete tag with a whitespace Text child and a
tag child, the heuristic runs to a result, that result is the computed
`indentOkB` — true here — and the whitespace Text child ends up
detached. -/
theorem c7_witness :
    ∃ b s2, canIndent c7wstate 2 1 64 = .ok (b, s2) ∧
      b = indentOkB c7wstate 2 (cl7w 1) ∧ b = true ∧
      (b = false → s2 = c7wstate) ∧
      (b = true → ∀ c ∈ cl7w 1, (c7wstate c).type = NType.text →
        (s2 c).sup = none) := by
  have hwf0 : WF (initHeap ty7w) (fun _ => []) :=
    WF_init ty7w (initHeap_fresh ty7w (by
      intro i
      by_cases h1 : i = 1
      · simp [ty7w, h1, tagRec, textRec, freshRec]
      · by_cases h2 : i = 2 <;> simp [ty7w, h1, h2, tagRec, textRec, freshRec]))
  have hwf1 := appendCore_wf (t := 1) hwf0
    (by decide : ((initHeap ty7w) 2).sup = none)
  have hwf2 := appendCore_wf (t := 1) hwf1
    (by decide : ((appendCore (initHeap ty7w) 1 2) 3).sup = none)
  have hwfw : WF c7wstate cl7w := by
    refine hwf2.congr ?_
    intro q
    by_cases hq : q = 1 <;> simp [cl7w, Function.update_apply, hq]
  have hcl1 : cl7w 1 = [2, 3] := by simp [cl7w, Function.update_apply]
  obtain ⟨b, s2, hrun, hb, _, hfn, htr⟩ :=
    c7_amended_indent_heuristic c7wstate cl7w 1 2 64 hwfw
      (by rw [hcl1]; decide)
      (by
        intro c hc
        rw [hcl1] at hc
        rcases List.mem_cons.mp hc with rfl | hc2
        · decide
        · rcases List.mem_cons.mp hc2 with rfl | hc3
          · decide
          · exact absurd hc3 (List.not_mem_nil c))
  refine ⟨b, s2, hrun, hb, ?_, hfn, fun hbt => (htr hbt).2⟩
  rw [hb, hcl1]
  decide


/-! ### C8 support: which steps touch `decl`, `root` and `doc`

The scanners move `pos`/`chr`/`p`/`posNs` only; `skipPi` is the one
routine that writes `decl` and `pi`; `root` and `doc` are written in
exactly one branch of `processToken`. -/


lemma DRD.trans {a b c : PSt} (h1 : DRD a b) (h2 : DRD b c) : DRD a c :=
  ⟨h2.1.trans h1.1, h2.2.1.trans h1.2.1, h2.2.2.trans h1.2.2⟩

lemma skipChar_drd (inp : Str) (st : PSt) (num : Nat) :
    DRD st (skipChar inp st num) := ⟨rfl, rfl, rfl⟩

lemma skipSpaceF_drd (inp : Str) (len : Nat) :
    ∀ (fuel : Nat) (st : PSt), DRD st (skipSpaceF inp len fuel st).2 := by
  intro fuel
  induction fuel with
  | zero => intro st; exact ⟨rfl, rfl, rfl⟩
  | succ n ih =>
      intro st
      simp only [skipSpaceF]
      split
      · split
        · exact ⟨rfl, rfl, rfl⟩
        · exact DRD.trans ⟨rfl, rfl, rfl⟩ (ih _)
      · exact ⟨rfl, rfl, rfl⟩

lemma skipTagF_drd (inp : Str) (len : Nat) (closing : Bool) (start : Nat) :
    ∀ (fuel : Nat) (st : PSt), DRD st (skipTagF inp len closing start fuel st).2 := by
  intro fuel
  induction fuel with
  | zero => intro st; exact ⟨rfl, rfl, rfl⟩
  | succ n ih =>
      intro st
      simp only [skipTagF]
      split
      · split
        · exact ⟨rfl, rfl, rfl⟩
        · split
          · exact ⟨rfl, rfl, rfl⟩
          · split
            · exact ⟨rfl, rfl, rfl⟩
            · split
              · split
                · exact ⟨rfl, rfl, rfl⟩
                · split
                  · exact ⟨rfl, rfl, rfl⟩
                  · exact DRD.trans ⟨rfl, rfl, rfl⟩ (ih _)
              · split
                · exact ⟨rfl, rfl, rfl⟩
                · exact DRD.trans ⟨rfl, rfl, rfl⟩ (ih _)
      · exact ⟨rfl, rfl, rfl⟩

lemma skipAttrF_drd (inp : Str) (len : Nat) (start : Nat) :
    ∀ (fuel : Nat) (st : PSt), DRD st (skipAttrF inp len start fuel st).2 := by
  intro fuel
  induction fuel with
  | zero => intro st; exact ⟨rfl, rfl, rfl⟩
  | succ n ih =>
      intro st
      simp only [skipAttrF]
      repeat' split
      all_goals first
        | exact ⟨rfl, rfl, rfl⟩
        | exact DRD.trans ⟨rfl, rfl, rfl⟩ (ih _)

lemma skipToValue_drd (inp : Str) (st : PSt) :
    DRD st (skipToValue inp st).2 := ⟨rfl, rfl, rfl⟩

lemma skipValueF_drd (inp : Str) (len : Nat) :
    ∀ (fuel : Nat) (st : PSt), DRD st (skipValueF inp len fuel st).2 := by
  intro fuel
  induction fuel with
  | zero => intro st; exact ⟨rfl, rfl, rfl⟩
  | succ n ih =>
      intro st
      simp only [skipValueF]
      repeat' split
      all_goals first
        | exact ⟨rfl, rfl, rfl⟩
        | exact DRD.trans ⟨rfl, rfl, rfl⟩ (ih _)

lemma skipTextF_drd (inp : Str) (len : Nat) :
    ∀ (fuel : Nat) (st : PSt), DRD st (skipTextF inp len fuel st).2 := by
  intro fuel
  induction fuel with
  | zero => intro st; exact ⟨rfl, rfl, rfl⟩
  | succ n ih =>
      intro st
      simp only [skipTextF]
      repeat' split
      all_goals first
        | exact ⟨rfl, rfl, rfl⟩
        | exact DRD.trans ⟨rfl, rfl, rfl⟩ (ih _)

lemma skipCDATAF_drd (inp : Str) (len : Nat) :
    ∀ (fuel : Nat) (st : PSt), DRD st (skipCDATAF inp len fuel st).2 := by
  intro fuel
  induction fuel with
  | zero => intro st; exact ⟨rfl, rfl, rfl⟩
  | succ n ih =>
      intro st
      simp only [skipCDATAF]
      repeat' split
      all_goals first
        | exact ⟨rfl, rfl, rfl⟩
        | exact DRD.trans ⟨rfl, rfl, rfl⟩ (ih _)

lemma skipCommentF_drd (inp : Str) (len : Nat) :
    ∀ (fuel : Nat) (st : PSt), DRD st (skipCommentF inp len fuel st).2 := by
  intro fuel
  induction fuel with
  | zero => intro st; exact ⟨rfl, rfl, rfl⟩
  | succ n ih =>
      intro st
      simp only [skipCommentF]
      repeat' split
      all_goals first
        | exact ⟨rfl, rfl, rfl⟩
        | exact DRD.trans ⟨rfl, rfl, rfl⟩ (ih _)

lemma getTagF_drd (inp : Str) (st : PSt) : DRD st (getTagF inp st) := ⟨rfl, rfl, rfl⟩

lemma getAttrF_drd (inp : Str) (st : PSt) : DRD st (getAttrF inp st) := ⟨rfl, rfl, rfl⟩

lemma tokenKindF_drd (inp : Str) (st : PSt) : DRD st (tokenKindF inp st).2 := by
  simp only [tokenKindF]
  repeat' split
  all_goals exact ⟨rfl, rfl, rfl⟩


/-- The `skipPi` scan only ever raises `decl`: it answers with `decl` set
(the `?>` exit) or with the incoming flag (the bare `>` exit of a `<!…>`
instruction). -/
lemma piScanF_decl (inp : Str) (len : Nat) (x : Bool) :
    ∀ (fuel : Nat) (o : Str) (string : Bool) (q p pos : Nat) (chr : Option Nat)
      (decl : Bool) (pi : List Str) (r : Nat × Option Nat × Bool × List Str),
      piScanF inp len x fuel o string q p pos chr decl pi = some r →
      r.2.2.1 = true ∨ r.2.2.1 = decl := by
  intro fuel
  induction fuel with
  | zero =>
      intro o string q p pos chr decl pi r h
      exact Option.noConfusion h
  | succ n ih =>
      intro o string q p pos chr decl pi r h
      simp only [piScanF] at h
      repeat' split at h
      all_goals
        first
          | exact Option.noConfusion h
          | exact ih _ _ _ _ _ _ _ _ _ h
          | (injection h with h1; subst h1; exact Or.inl rfl)
          | (injection h with h1; subst h1; exact Or.inr rfl)

/-- A successful `skipPi` leaves `root` and `doc` alone and either raises
`decl` or leaves it alone. -/
lemma skipPiF_flags (inp : Str) (len : Nat) (st st2 : PSt)
    (h : skipPiF inp len st = (true, st2)) :
    st2.root = st.root ∧ st2.doc = st.doc ∧
      (st2.decl = true ∨ st2.decl = st.decl) := by
  simp only [skipPiF] at h
  rcases hpw : piWs inp len (len + 2) st.pos with _ | ⟨pos1, chr1⟩
  · rw [hpw] at h
    simp only [] at h
    injection h with h1 h2
    exact absurd h1 (by decide)
  · rw [hpw] at h
    simp only [] at h
    rcases hps : piScanF inp len (cEq st.chr 33) (len + 2) [] false 0 pos1 pos1 chr1
        st.decl st.pi with _ | ⟨pos2, chr2, decl2, pi2⟩
    · rw [hps] at h
      simp only [] at h
      injection h with h1 h2
      exact absurd h1 (by decide)
    · rw [hps] at h
      simp only [] at h
      injection h with h1 h2
      subst h2
      refine ⟨rfl, rfl, ?_⟩
      rcases piScanF_decl inp len _ _ _ _ _ _ _ _ _ _ _ hps with h2 | h2
      · exact Or.inl h2
      · simp only [] at h2
        exact Or.inr h2


/-- The four flag facts at a step that did not write `decl`, `root` or
`doc`. -/
lemma DRD_flags (Q : Prop) (st0 st' : PSt) (hd : DRD st0 st') :
    (st'.decl = true ∨ st'.decl = st0.decl) ∧
    (st'.decl ≠ st0.decl → Q) ∧
    (st0.root ≠ none → st'.root = st0.root ∧ st'.doc = st0.doc) ∧
    (st0.root = none →
      (st'.root = none ∧ st'.doc = st0.doc) ∨
      (st0.decl = true ∧ ∃ pr, st'.doc = some pr ∧ st'.root = some pr.2) ∨
      (st0.decl = false ∧ st'.doc = st0.doc ∧ st'.root ≠ none)) := by
  obtain ⟨h1, h2, h3⟩ := hd
  exact ⟨Or.inr h1, fun hne => absurd h1 hne, fun _ => ⟨h2, h3⟩,
    fun hr => Or.inl ⟨h2.trans hr, h3⟩⟩


/-- Frame transfer out of a scanner equation. -/
lemma drd_of_eq {a : PSt} {pr : Bool × PSt} (hd : DRD a pr.2) {b : Bool}
    {c : PSt} (h : pr = (b, c)) : DRD a c := by
  rw [h] at hd
  exact hd

/-- One `processToken` step and the three flags: `decl` only ever rises,
and only on a `<?…?>`/`<!…>` token; once `root` is set neither `root` nor
`doc` changes again; with `root` unset a step either leaves both alone, or
creates the root — creating the `Document` holding that root exactly when
`decl` was already set. -/
lemma processTokenF_flags (inp : Str) (len : Nat) (embedded : Bool) (st0 st' : PSt)
    (h : processTokenF inp len embedded st0 = .ok st') :
    (st'.decl = true ∨ st'.decl = st0.decl) ∧
    (st'.decl ≠ st0.decl → (tokenKindF inp st0).1 = Tkn.tpi) ∧
    (st0.root ≠ none → st'.root = st0.root ∧ st'.doc = st0.doc) ∧
    (st0.root = none →
      (st'.root = none ∧ st'.doc = st0.doc) ∨
      (st0.decl = true ∧ ∃ pr, st'.doc = some pr ∧ st'.root = some pr.2) ∨
      (st0.decl = false ∧ st'.doc = st0.doc ∧ st'.root ≠ none)) := by
  simp only [processTokenF] at h
  rcases htk : tokenKindF inp st0 with ⟨tk, st⟩
  rw [htk] at h
  try simp only [] at h
  have hdrd : DRD st0 st := by
    have h2 := tokenKindF_drd inp st0
    rw [htk] at h2
    exact h2
  cases tk with
  | tagStart =>
      try simp only [] at h
      by_cases hc : cEq st.chr 47 = true
      · rw [if_pos hc] at h
        split at h
        · exact Except.noConfusion h
        · rename_i st2 heq
          try simp only [] at h
          have hsc := drd_of_eq (skipTagF_drd inp len _ _ _ _) heq
          have hd2 : DRD st st2 := hsc
          split at h
          · exact Except.noConfusion h
          · rename_i cn hcn
            split at h
            · split at h
              · injection h with h1
                subst h1
                refine DRD_flags _ st0 _ (hdrd.trans (hd2.trans ?_))
                exact ⟨rfl, rfl, rfl⟩
              · injection h with h1
                subst h1
                refine DRD_flags _ st0 _ (hdrd.trans (hd2.trans ?_))
                exact ⟨rfl, rfl, rfl⟩
            · exact Except.noConfusion h
      · rw [if_neg hc] at h
        split at h
        · exact Except.noConfusion h
        · rename_i st2 heq
          try simp only [] at h
          have hsc := drd_of_eq (skipTagF_drd inp len _ _ _ _) heq
          have hd2 : DRD st st2 := hsc
          have hr02 : st2.root = st0.root := hd2.2.1.trans hdrd.2.1
          have hdc02 : st2.decl = st0.decl := hd2.1.trans hdrd.1
          have hdo02 : st2.doc = st0.doc := hd2.2.2.trans hdrd.2.2
          split at h
          · rename_i hroot
            split at h
            · rename_i hdecl
              injection h with h1
              subst h1
              refine ⟨Or.inr hdc02, fun hne => absurd hdc02 hne,
                fun hr0 => absurd (hr02.symm.trans hroot) hr0, fun _ => ?_⟩
              exact Or.inr (Or.inr ⟨hdc02.symm.trans hdecl, hdo02,
                fun hx => Option.noConfusion hx⟩)
            · rename_i hdecl
              injection h with h1
              subst h1
              have hdtrue : st2.decl = true := by
                rcases hb : st2.decl with _ | _
                · exact absurd hb hdecl
                · rfl
              refine ⟨Or.inr hdc02, fun hne => absurd hdc02 hne,
                fun hr0 => absurd (hr02.symm.trans hroot) hr0, fun _ => ?_⟩
              exact Or.inr (Or.inl ⟨hdc02.symm.trans hdtrue,
                ⟨(st2.pi, st2.nxt), rfl, rfl⟩⟩)
          · split at h
            · exact Except.noConfusion h
            · rename_i cn hcn
              split at h
              · exact Except.noConfusion h
              · rename_i h2 happ
                injection h with h1
                subst h1
                refine DRD_flags _ st0 _ (hdrd.trans (hd2.trans ?_))
                exact ⟨rfl, rfl, rfl⟩
  | attr =>
      try simp only [] at h
      split at h
      · exact Except.noConfusion h
      · rename_i st2 heq
        injection h with h1
        subst h1
        have hsc := drd_of_eq (skipAttrF_drd inp len _ _ _) heq
        have hd2 : DRD st st2 := hsc
        refine DRD_flags _ st0 _ (hdrd.trans (hd2.trans ?_))
        exact ⟨rfl, rfl, rfl⟩
  | attrEq =>
      try simp only [] at h
      split at h
      · exact Except.noConfusion h
      · rename_i st2 heq
        try simp only [] at h
        have hsc := drd_of_eq (skipToValue_drd inp _) heq
        have hd2 : DRD st st2 := hsc
        split at h
        · exact Except.noConfusion h
        · rename_i st4 heq4
          have hsc4 := drd_of_eq (skipValueF_drd inp len _ _) heq4
          have hd4 : DRD st2 st4 := hsc4
          split at h
          · exact Except.noConfusion h
          · rename_i cn hcn
            injection h with h1
            subst h1
            refine DRD_flags _ st0 _ (hdrd.trans ((hd2.trans hd4).trans ?_))
            exact ⟨rfl, rfl, rfl⟩
  | tagClose =>
      try simp only [] at h
      split at h
      · split at h
        · exact Except.noConfusion h
        · rename_i cn hcn
          split at h
          · injection h with h1
            subst h1
            refine DRD_flags _ st0 _ (hdrd.trans ?_)
            exact ⟨rfl, rfl, rfl⟩
          · injection h with h1
            subst h1
            refine DRD_flags _ st0 _ (hdrd.trans ?_)
            exact ⟨rfl, rfl, rfl⟩
      · exact Except.noConfusion h
  | tagEnd =>
      injection h with h1
      subst h1
      refine DRD_flags _ st0 _ (hdrd.trans ?_)
      exact ⟨rfl, rfl, rfl⟩
  | tcdata =>
      try simp only [] at h
      split at h
      · exact Except.noConfusion h
      · rename_i st2 heq
        have hsc := drd_of_eq (skipCDATAF_drd inp len _ _) heq
        have hd2 : DRD st st2 := hsc
        split at h
        · exact Except.noConfusion h
        · rename_i cn hcn
          split at h
          · exact Except.noConfusion h
          · rename_i h2 happ
            injection h with h1
            subst h1
            refine DRD_flags _ st0 _ (hdrd.trans (hd2.trans ?_))
            exact ⟨rfl, rfl, rfl⟩
  | tcomment =>
      try simp only [] at h
      split at h
      · exact Except.noConfusion h
      · rename_i st2 heq
        have hsc := drd_of_eq (skipCommentF_drd inp len _ _) heq
        have hd2 : DRD st st2 := hsc
        split at h
        · exact Except.noConfusion h
        · rename_i cn hcn
          split at h
          · exact Except.noConfusion h
          · rename_i h2 happ
            injection h with h1
            subst h1
            refine DRD_flags _ st0 _ (hdrd.trans (hd2.trans ?_))
            exact ⟨rfl, rfl, rfl⟩
  | tpi =>
      try simp only [] at h
      split at h
      · exact Except.noConfusion h
      · split at h
        · exact Except.noConfusion h
        · rename_i st2 heq
          injection h with h1
          subst h1
          obtain ⟨hpr, hpd, hpdecl⟩ := skipPiF_flags inp len st st2 heq
          refine ⟨?_, fun _ => rfl, fun hr0 => ?_, fun hr0 => ?_⟩
          · rcases hpdecl with h2 | h2
            · exact Or.inl h2
            · exact Or.inr (h2.trans hdrd.1)
          · exact ⟨hpr.trans hdrd.2.1, hpd.trans hdrd.2.2⟩
          · exact Or.inl ⟨(hpr.trans hdrd.2.1).trans hr0, hpd.trans hdrd.2.2⟩
  | ttext =>
      try simp only [] at h
      split at h
      · exact Except.noConfusion h
      · rename_i st2 heq
        have hsc := drd_of_eq (skipTextF_drd inp len _ _) heq
        have hd2 : DRD st st2 := hsc
        split at h
        · exact Except.noConfusion h
        · rename_i cn hcn
          split at h
          · exact Except.noConfusion h
          · rename_i c2 hc2
            try simp only [] at h
            split at h
            · split at h
              · exact Except.noConfusion h
              · exact Except.noConfusion h
              · rename_i decoded hdec
                split at h
                · exact Except.noConfusion h
                · rename_i h2 happ
                  injection h with h1
                  subst h1
                  refine DRD_flags _ st0 _ (hdrd.trans (hd2.trans ?_))
                  exact ⟨rfl, rfl, rfl⟩
            · injection h with h1
              subst h1
              refine DRD_flags _ st0 _ (hdrd.trans (hd2.trans ?_))
              exact ⟨rfl, rfl, rfl⟩
  | attrVal =>
      injection h with h1
      subst h1
      exact DRD_flags _ st0 _ hdrd
  | tnone =>
      injection h with h1
      subst h1
      refine DRD_flags _ st0 _ (hdrd.trans ?_)
      exact skipSpaceF_drd inp len _ _


/-- The whole token loop, flag-wise: `decl` never drops; `root` and `doc`
never change once set; with the root already created and no `Document`,
no later step (in particular no later `<?…?>`) can create one; a
`Document` appearing during the run forces `decl` at the end; and the
`Document`, when present, always holds the parser's root. -/
lemma parseLoopF_flags (inp : Str) (len : Nat) (embedded : Bool) :
    ∀ (fuel : Nat) (st st2 : PSt), parseLoopF inp len embedded fuel st = .ok st2 →
      (∀ pr : List Str × ID, st.doc = some pr → st.root = some pr.2) →
      (st.decl = true → st2.decl = true) ∧
      (st.root ≠ none → st2.root = st.root) ∧
      (st.doc ≠ none → st2.doc = st.doc) ∧
      (st.root ≠ none → st.doc = none → st2.doc = none) ∧
      (st.doc = none → st2.doc ≠ none → st2.decl = true) ∧
      (∀ pr : List Str × ID, st2.doc = some pr → st2.root = some pr.2) := by
  intro fuel
  induction fuel with
  | zero => intro st st2 h _; exact Except.noConfusion h
  | succ n ih =>
      intro st st2 h hinv
      rw [parseLoopF] at h
      by_cases hp : st.pos ≠ len
      · rw [if_pos hp] at h
        rcases hpt : processTokenF inp len embedded st with e | st1
        · rw [hpt] at h
          exact Except.noConfusion h
        · rw [hpt] at h
          simp only [] at h
          obtain ⟨s1, _, s3, s4⟩ := processTokenF_flags inp len embedded st st1 hpt
          have hdmono : st.decl = true → st1.decl = true := by
            intro hd
            rcases s1 with h2 | h2
            · exact h2
            · exact h2.trans hd
          by_cases hr : st.root = none
          · have hdn : st.doc = none := by
              rcases hd : st.doc with _ | pr
              · rfl
              · have h2 := hinv pr hd
                rw [hr] at h2
                exact Option.noConfusion h2
            rcases s4 hr with ⟨e1, e2⟩ | ⟨hdl, pr0, f1, f2⟩ | ⟨hdl, f2, f3⟩
            · have hd1n : st1.doc = none := e2.trans hdn
              have hinv1 : ∀ pr : List Str × ID, st1.doc = some pr →
                  st1.root = some pr.2 := by
                intro pr hpr
                rw [hd1n] at hpr
                exact Option.noConfusion hpr
              obtain ⟨i1, i2, i3, i4, i5, i6⟩ := ih st1 st2 h hinv1
              refine ⟨fun hd => i1 (hdmono hd), fun hx => absurd hr hx,
                fun hx => absurd hdn hx, fun hx => absurd hr hx,
                fun _ hx => i5 hd1n hx, i6⟩
            · have hinv1 : ∀ pr : List Str × ID, st1.doc = some pr →
                  st1.root = some pr.2 := by
                intro pr hpr
                rw [f1] at hpr
                injection hpr with hpr2
                subst hpr2
                exact f2
              obtain ⟨i1, i2, i3, i4, i5, i6⟩ := ih st1 st2 h hinv1
              refine ⟨fun hd => i1 (hdmono hd), fun hx => absurd hr hx,
                fun hx => absurd hdn hx, fun hx => absurd hr hx,
                fun _ _ => i1 (hdmono hdl), i6⟩
            · have hd1n : st1.doc = none := f2.trans hdn
              have hinv1 : ∀ pr : List Str × ID, st1.doc = some pr →
                  st1.root = some pr.2 := by
                intro pr hpr
                rw [hd1n] at hpr
                exact Option.noConfusion hpr
              obtain ⟨i1, i2, i3, i4, i5, i6⟩ := ih st1 st2 h hinv1
              refine ⟨fun hd => absurd (hdl.symm.trans hd) (by decide),
                fun hx => absurd hr hx, fun hx => absurd hdn hx,
                fun hx => absurd hr hx, fun _ hx => i5 hd1n hx, i6⟩
          · obtain ⟨e1, e2⟩ := s3 hr
            have hinv1 : ∀ pr : List Str × ID, st1.doc = some pr →
                st1.root = some pr.2 := by
              intro pr hpr
              rw [e2] at hpr
              rw [e1]
              exact hinv pr hpr
            obtain ⟨i1, i2, i3, i4, i5, i6⟩ := ih st1 st2 h hinv1
            have hr1 : st1.root ≠ none := by
              rw [e1]
              exact hr
            refine ⟨fun hd => i1 (hdmono hd), fun _ => (i2 hr1).trans e1,
              fun hx => (i3 (by rw [e2]; exact hx)).trans e2,
              fun _ hdn => i4 hr1 (e2.trans hdn),
              fun hdn hx => i5 (e2.trans hdn) hx, i6⟩
      · rw [if_neg hp] at h
        injection h with h1
        subst h1
        exact ⟨fun hd => hd, fun _ => rfl, fun _ => rfl, fun _ hx => hx,
          fun hdn hx => absurd hdn hx, hinv⟩


/-- What each `UXML.parse` outcome says about the final scanner state: a
`Document` outcome carries the final `doc` pair and its root IS the
parser's root; `undefined` is exactly `decl` set with no `Document`; a
bare node is exactly `decl` never set, with `currNode` the node
returned. -/
lemma uxmlParse_state (inp : Str) (fuel : Nat) (r : ParseRes)
    (h : uxmlParse inp fuel = .ok r) :
    ∃ st2, parseLoopF inp inp.length false fuel
        ((skipSpaceF inp inp.length (inp.length + 2) (parseInit inp 0)).2) = .ok st2 ∧
      (∀ pis rt hp, r = .pdoc pis rt hp →
        st2.decl = true ∧ st2.doc = some (pis, rt) ∧ st2.root = some rt ∧
          hp = st2.heap) ∧
      (∀ i hp, r = .pnode i hp →
        st2.decl = false ∧ st2.currNode = some i ∧ hp = st2.heap) ∧
      (r = .pundef → st2.decl = true ∧ st2.doc = none) := by
  rw [uxmlParse] at h
  simp only [parseUXML] at h
  split at h
  · exact Except.noConfusion h
  · rename_i st2 hloop
    refine ⟨st2, hloop, ?_, ?_, ?_⟩ <;> split at h
    · rename_i hdecl
      split at h
      · rename_i dpi rootId hdoc
        injection h with h1
        subst h1
        have hinv0 : ∀ pr : List Str × ID,
            ((skipSpaceF inp inp.length (inp.length + 2) (parseInit inp 0)).2).doc =
              some pr →
            ((skipSpaceF inp inp.length (inp.length + 2) (parseInit inp 0)).2).root =
              some pr.2 := by
          intro pr hpr
          have hd := skipSpaceF_drd inp inp.length (inp.length + 2) (parseInit inp 0)
          rw [hd.2.2] at hpr
          exact Option.noConfusion hpr
        obtain ⟨_, _, _, _, _, i6⟩ :=
          parseLoopF_flags inp inp.length false fuel _ st2 hloop hinv0
        intro pis rt hp hre
        injection hre with a b c
        refine ⟨hdecl, ?_, ?_, c.symm⟩
        · rw [← a, ← b]
          exact hdoc
        · rw [← b]
          exact i6 (dpi, rootId) hdoc
      · rename_i hdoc
        injection h with h1
        subst h1
        intro pis rt hp hre
        exact ParseRes.noConfusion hre
    · rename_i hdecl
      split at h
      · rename_i cn hcn
        injection h with h1
        subst h1
        intro pis rt hp hre
        exact ParseRes.noConfusion hre
      · exact Except.noConfusion h
    · rename_i hdecl
      split at h
      · rename_i dpi rootId hdoc
        injection h with h1
        subst h1
        intro i hp hre
        exact ParseRes.noConfusion hre
      · rename_i hdoc
        injection h with h1
        subst h1
        intro i hp hre
        exact ParseRes.noConfusion hre
    · rename_i hdecl
      split at h
      · rename_i cn hcn
        injection h with h1
        subst h1
        intro i hp hre
        injection hre with a b
        subst a
        subst b
        have hdf : st2.decl = false := by
          rcases hb : st2.decl with _ | _
          · rfl
          · exact absurd hb hdecl
        exact ⟨hdf, hcn, rfl⟩
      · exact Except.noConfusion h
    · rename_i hdecl
      split at h
      · rename_i dpi rootId hdoc
        injection h with h1
        subst h1
        intro hre
        exact ParseRes.noConfusion hre
      · rename_i hdoc
        injection h with h1
        subst h1
        intro _
        exact ⟨hdecl, hdoc⟩
    · rename_i hdecl
      split at h
      · rename_i cn hcn
        injection h with h1
        subst h1
        intro hre
        exact ParseRes.noConfusion hre
      · exact Except.noConfusion h

/-- C8 (amended), in four parts.  (1) Per step: `decl` never drops and
changes only on a `<?…?>`/`<!…>` token; once the root exists neither
`root` nor `doc` ever changes; a step with no root yet either touches
neither, or creates the root — creating the `Document` (holding the PI
strings collected so far and that root) exactly when `decl` was already
set.  (2) Per run: those facts compose — in particular, once the root
exists with no `Document`, no later processing instruction can produce
one.  (3) Per outcome: a parse returns a `Document` exactly when the
final state has `decl` with `doc` built (and the Document's root is the
parser's root); it returns the JS `undefined` exactly when `decl` was set
but no `Document` was ever built — the first PI came after the root had
opened, or no root was ever created; it returns the bare `currNode` node
exactly when no PI-like construct was met at all (`decl` clear).
(4) Concretely: a leading PI yields a `Document` with the PI stored;
`<r/>` yields the bare tag `r` with zero children; `<!DOCTYPE …>` is
collected but discarded without a document; `<r><?x?></r>` and the
rootless `<?x?>` both come back as `undefined` (outcome 5). -/
theorem c8_amended_document_wrapping :
    (∀ inp len embedded st st', processTokenF inp len embedded st = .ok st' →
       (st'.decl = true ∨ st'.decl = st.decl) ∧
       (st'.decl ≠ st.decl → (tokenKindF inp st).1 = Tkn.tpi) ∧
       (st.root ≠ none → st'.root = st.root ∧ st'.doc = st.doc) ∧
       (st.root = none →
         (st'.root = none ∧ st'.doc = st.doc) ∨
         (st.decl = true ∧ ∃ pr, st'.doc = some pr ∧ st'.root = some pr.2) ∨
         (st.decl = false ∧ st'.doc = st.doc ∧ st'.root ≠ none))) ∧
    (∀ inp len embedded fuel st st2,
       parseLoopF inp len embedded fuel st = .ok st2 →
       (∀ pr : List Str × ID, st.doc = some pr → st.root = some pr.2) →
       (st.decl = true → st2.decl = true) ∧
       (st.root ≠ none → st2.root = st.root) ∧
       (st.doc ≠ none → st2.doc = st.doc) ∧
       (st.root ≠ none → st.doc = none → st2.doc = none) ∧
       (st.doc = none → st2.doc ≠ none → st2.decl = true) ∧
       (∀ pr : List Str × ID, st2.doc = some pr → st2.root = some pr.2)) ∧
    (∀ inp fuel r, uxmlParse inp fuel = .ok r →
       ∃ st2, parseLoopF inp inp.length false fuel
           ((skipSpaceF inp inp.length (inp.length + 2) (parseInit inp 0)).2) =
             .ok st2 ∧
         (∀ pis rt hp, r = .pdoc pis rt hp →
           st2.decl = true ∧ st2.doc = some (pis, rt) ∧ st2.root = some rt ∧
             hp = st2.heap) ∧
         (∀ i hp, r = .pnode i hp →
           st2.decl = false ∧ st2.currNode = some i ∧ hp = st2.heap) ∧
         (r = .pundef → st2.decl = true ∧ st2.doc = none)) ∧
    (pKind (uxmlParse (str "<?xml version=\"1.0\"?><r/>") 400) = 3 ∧
     pPis (uxmlParse (str "<?xml version=\"1.0\"?><r/>") 400) =
       some [str "<?xml version=\"1.0\"?>"] ∧
     pKind (uxmlParse (str "<r/>") 400) = 4 ∧
     pName (uxmlParse (str "<r/>") 400) = some (str "r") ∧
     pSize (uxmlParse (str "<r/>") 400) = some 0 ∧
     pKind (uxmlParse (str "<!DOCTYPE x><r/>") 400) = 4 ∧
     pKind (uxmlParse (str "<r><?x?></r>") 400) = 5 ∧
     pKind (uxmlParse (str "<?x?>") 400) = 5) :=
  ⟨fun inp len embedded st st' h => processTokenF_flags inp len embedded st st' h,
   fun inp len embedded fuel st st2 h hinv =>
     parseLoopF_flags inp len embedded fuel st st2 h hinv,
   fun inp fuel r h => uxmlParse_state inp fuel r h,
   by decide⟩

end UXML
